import Mathlib

/-!
Verification of the `resumer` session/state core against its specification.

The definitions below are a shallow embedding of the TypeScript sources:
  * `reconcileStateWithTmux` from `main-helpers.ts` (src/unnamed/part_005),
  * `isRealPrompt`, `getLastMessageType`, `listClaudeSessions` from the
    Claude log reader (src/unnamed/part_007),
  * `getBaseCommand` / `disambiguateCommands` from `ui/tui-labels.ts`.

External capabilities (the tmux environment, the filesystem) are passed in
as explicit parameters/records, mirroring the collaborator boundaries the
spec draws in §6.  JavaScript objects/`Map`s are modelled as insertion-ordered
association lists with the same update-in-place/append semantics.
-/

set_option maxHeartbeats 1000000

namespace Resumer

/-! ## Association-list helpers (JS object / `Map` semantics) -/

/-- First-match association lookup (JS `map.get` / `obj[k]`; keys are unique
in practice, and lookups take the first match). -/
def alookup {β : Type} (k : String) : List (String × β) → Option β
  | [] => none
  | (k', v) :: rest => if k = k' then some v else alookup k rest

/-- Update the value at `k` in place (JS assignment to an existing key keeps
its position). -/
def updAt {β : Type} (m : List (String × β)) (k : String) (f : β → β) : List (String × β) :=
  m.map (fun kv => if kv.1 = k then (kv.1, f kv.2) else kv)

/-- JS `map.set` / `obj[k] = v` semantics: update in place when the key is
present, append at the end otherwise. -/
def upsert {β : Type} (m : List (String × β)) (k : String) (init : β) (f : β → β) :
    List (String × β) :=
  match alookup k m with
  | some _ => updAt m k f
  | none => m ++ [(k, init)]

theorem alookup_append {β : Type} (m m' : List (String × β)) (k : String) :
    alookup k (m ++ m') = (alookup k m).orElse (fun _ => alookup k m') := by
  induction m with
  | nil => simp [alookup]
  | cons kv rest ih =>
    by_cases h : k = kv.1
    · simp [alookup, h, Option.orElse]
    · simpa [alookup, h] using ih

theorem alookup_updAt_self {β : Type} (m : List (String × β)) (k : String) (f : β → β)
    (v : β) (h : alookup k m = some v) : alookup k (updAt m k f) = some (f v) := by
  induction m with
  | nil => simp [alookup] at h
  | cons kv rest ih =>
    obtain ⟨k', v'⟩ := kv
    by_cases hk : k = k'
    · rw [alookup, if_pos hk] at h
      rw [updAt, List.map_cons]
      rw [show (if (k', v').1 = k then ((k', v').1, f (k', v').2) else (k', v')) = (k', f v') by
        simp [hk.symm]]
      rw [alookup, if_pos hk]
      simp at h
      rw [h]
    · rw [alookup, if_neg hk] at h
      rw [updAt, List.map_cons, alookup]
      by_cases hkk : (k', v').1 = k
      · exact absurd hkk.symm hk
      · rw [if_neg hkk]
        simpa [alookup, hk, updAt] using ih h

theorem alookup_updAt_ne {β : Type} (m : List (String × β)) (k k' : String) (f : β → β)
    (h : k' ≠ k) : alookup k' (updAt m k f) = alookup k' m := by
  induction m with
  | nil => simp [updAt, alookup]
  | cons kv rest ih =>
    obtain ⟨a, b⟩ := kv
    rw [updAt, List.map_cons]
    by_cases ha : a = k
    · rw [if_pos (by simpa using ha)]
      rw [alookup, alookup, if_neg (by simpa [ha] using h), if_neg (by simpa [ha] using h)]
      simpa [updAt] using ih
    · rw [if_neg (by simpa using ha)]
      rw [alookup, alookup]
      by_cases hk' : k' = a
      · rw [if_pos hk', if_pos hk']
      · rw [if_neg hk', if_neg hk']
        simpa [updAt] using ih

theorem alookup_upsert_self {β : Type} (m : List (String × β)) (k : String) (init : β)
    (f : β → β) :
    alookup k (upsert m k init f) =
      some (match alookup k m with | some v => f v | none => init) := by
  unfold upsert
  cases h : alookup k m with
  | some v => simpa using alookup_updAt_self m k f v h
  | none =>
    rw [alookup_append]
    simp [h, alookup, Option.orElse]

theorem alookup_upsert_ne {β : Type} (m : List (String × β)) (k k' : String) (init : β)
    (f : β → β) (h : k' ≠ k) :
    alookup k' (upsert m k init f) = alookup k' m := by
  unfold upsert
  cases hm : alookup k m with
  | some v => exact alookup_updAt_ne m k k' f h
  | none =>
    rw [alookup_append]
    cases h' : alookup k' m with
    | some v => simp [Option.orElse]
    | none => simp [Option.orElse, alookup, h]

theorem keys_updAt {β : Type} (m : List (String × β)) (k : String) (f : β → β) :
    (updAt m k f).map Prod.fst = m.map Prod.fst := by
  induction m with
  | nil => simp [updAt]
  | cons kv rest ih =>
    by_cases hk : kv.1 = k <;> simp [updAt, hk] at ih ⊢ <;> simpa [updAt] using ih

theorem keys_upsert {β : Type} (m : List (String × β)) (k : String) (init : β) (f : β → β) :
    (upsert m k init f).map Prod.fst =
      match alookup k m with
      | some _ => m.map Prod.fst
      | none => m.map Prod.fst ++ [k] := by
  unfold upsert
  cases h : alookup k m with
  | some v => simpa using keys_updAt m k f
  | none => simp

theorem alookup_eq_none_iff_not_mem_keys {β : Type} (m : List (String × β)) (k : String) :
    alookup k m = none ↔ k ∉ m.map Prod.fst := by
  induction m with
  | nil => simp [alookup]
  | cons kv rest ih =>
    obtain ⟨a, b⟩ := kv
    by_cases hk : k = a
    · simp [alookup, hk]
    · simp [alookup, hk, ih]

theorem alookup_isSome_iff_mem_keys {β : Type} (m : List (String × β)) (k : String) :
    (alookup k m).isSome ↔ k ∈ m.map Prod.fst := by
  rw [← not_iff_not, ← alookup_eq_none_iff_not_mem_keys]
  rw [Option.isSome_iff_ne_none]
  exact not_not

theorem nodup_keys_upsert {β : Type} (m : List (String × β)) (k : String) (init : β)
    (f : β → β) (h : (m.map Prod.fst).Nodup) :
    ((upsert m k init f).map Prod.fst).Nodup := by
  cases hl : alookup k m with
  | some v => rw [keys_upsert, hl]; exact h
  | none =>
    have hk : k ∉ m.map Prod.fst := (alookup_eq_none_iff_not_mem_keys m k).mp hl
    rw [keys_upsert, hl]
    rw [List.nodup_append]
    refine ⟨h, List.nodup_singleton k, ?_⟩
    intro a ha hb
    have hb' : a = k := by simpa using hb
    exact hk (hb' ▸ ha)

theorem alookup_of_mem_nodup {β : Type} (m : List (String × β)) (k : String) (v : β)
    (hnd : (m.map Prod.fst).Nodup) (hmem : (k, v) ∈ m) : alookup k m = some v := by
  induction m with
  | nil => simp at hmem
  | cons kv rest ih =>
    obtain ⟨a, b⟩ := kv
    rcases List.mem_cons.mp hmem with h | h
    · obtain ⟨h1, h2⟩ : k = a ∧ v = b := by simpa using h
      subst h1; subst h2
      rw [alookup, if_pos rfl]
    · have hk : k ≠ a := by
        intro hkk
        have hmemk : a ∈ rest.map Prod.fst :=
          List.mem_map.mpr ⟨(k, v), h, by simp [hkk]⟩
        exact (List.nodup_cons.mp (by simpa using hnd)).1 hmemk
      rw [alookup, if_neg hk]
      exact ih (List.nodup_cons.mp (by simpa using hnd)).2 h

theorem mem_upsert {β : Type} (m : List (String × β)) (k : String) (init : β) (f : β → β)
    (kv : String × β) (h : kv ∈ upsert m k init f) :
    kv ∈ m ∨ (∃ kv' ∈ m, kv = (kv'.1, f kv'.2)) ∨ kv = (k, init) := by
  unfold upsert at h
  cases hl : alookup k m with
  | some v =>
    rw [hl] at h
    rcases List.mem_map.mp h with ⟨kv', hkv', heq⟩
    by_cases hk : kv'.1 = k
    · right; left
      refine ⟨kv', hkv', ?_⟩
      rw [if_pos hk] at heq
      exact heq.symm
    · left
      rw [if_neg hk] at heq
      exact heq ▸ hkv'
  | none =>
    rw [hl] at h
    rcases List.mem_append.mp h with h | h
    · exact Or.inl h
    · right; right; simpa using h

/-- Keep-first deduplication (JS `Set` iteration order). `seen` accumulates
the keys already emitted. -/
def dedupFirst (seen : List String) : List String → List String
  | [] => []
  | x :: xs => if x ∈ seen then dedupFirst seen xs else x :: dedupFirst (x :: seen) xs

theorem mem_dedupFirst (l : List String) (seen : List String) (x : String) :
    x ∈ dedupFirst seen l ↔ x ∈ l ∧ x ∉ seen := by
  induction l generalizing seen with
  | nil => simp [dedupFirst]
  | cons y ys ih =>
    by_cases hy : y ∈ seen
    · rw [dedupFirst, if_pos hy, ih]
      constructor
      · rintro ⟨hx, hs⟩; exact ⟨List.mem_cons_of_mem _ hx, hs⟩
      · rintro ⟨hx, hs⟩
        rcases List.mem_cons.mp hx with rfl | hx
        · exact absurd hy hs
        · exact ⟨hx, hs⟩
    · rw [dedupFirst, if_neg hy]
      constructor
      · intro hx
        rcases List.mem_cons.mp hx with rfl | hx
        · exact ⟨List.mem_cons_self _ _, hy⟩
        · have := (ih (y :: seen)).mp hx
          exact ⟨List.mem_cons_of_mem _ this.1, fun hs => this.2 (List.mem_cons_of_mem _ hs)⟩
      · rintro ⟨hx, hs⟩
        rcases List.mem_cons.mp hx with rfl | hx
        · exact List.mem_cons_self _ _
        · by_cases hxy : x = y
          · subst hxy; exact List.mem_cons_self _ _
          · exact List.mem_cons_of_mem _
              ((ih (y :: seen)).mpr ⟨hx, by simp [hxy, hs]⟩)

theorem nodup_dedupFirst (l : List String) (seen : List String) :
    (dedupFirst seen l).Nodup := by
  induction l generalizing seen with
  | nil => simp [dedupFirst]
  | cons y ys ih =>
    by_cases hy : y ∈ seen
    · rw [dedupFirst, if_pos hy]; exact ih seen
    · rw [dedupFirst, if_neg hy]
      refine List.nodup_cons.mpr ⟨?_, ih (y :: seen)⟩
      intro hmem
      exact ((mem_dedupFirst ys (y :: seen) y).mp hmem).2 (List.mem_cons_self _ _)

/-! ## String helpers (JS `includes`, `split(/\s+/)`) -/

/-- `pat` occurs as a contiguous substring of `s` (JS `String.prototype.includes`),
at the level of character lists. -/
def listContains (s pat : List Char) : Bool :=
  match s with
  | [] => pat.isEmpty
  | c :: rest => pat.isPrefixOf (c :: rest) || listContains rest pat

/-- JS `s.includes(pat)`. -/
def strIncludes (s pat : String) : Bool :=
  listContains s.data pat.data

/-- The nonempty runs of characters separated by characters satisfying `p`
(used for JS `split(/\s+/)` on trimmed input and `split("/").filter(Boolean)`).
`cur` accumulates the current run in reverse. -/
def splitDropAux (p : Char → Bool) : List Char → List Char → List String
  | [], cur => if cur.isEmpty then [] else [⟨cur.reverse⟩]
  | c :: rest, cur =>
    if p c then
      if cur.isEmpty then splitDropAux p rest []
      else ⟨cur.reverse⟩ :: splitDropAux p rest []
    else splitDropAux p rest (c :: cur)

/-- JS `s.split(/\s+/)` on an already-trimmed string: whitespace-delimited
tokens, with empty fragments dropped. -/
def tokensOf (s : String) : List String :=
  splitDropAux Char.isWhitespace s.data []

/-- JS `String.prototype.trim` (over the whitespace characters Lean's
`Char.isWhitespace` recognises). -/
def jsTrim (s : String) : String :=
  ⟨((s.data.dropWhile Char.isWhitespace).reverse.dropWhile Char.isWhitespace).reverse⟩

/-- JS `s.startsWith(pre)`. -/
def jsStartsWith (s pre : String) : Bool :=
  pre.data.isPrefixOf s.data

/-! ## Identity & state model (`types.ts`, reconcile from `main-helpers.ts`) -/

/-- `Project` from `types.ts`: `{id, name, path, createdAt, lastUsedAt?}`. -/
structure Project where
  id : String
  path : String
  name : String
  createdAt : String
  lastUsedAt : Option String
deriving DecidableEq, Repr

/-- Session kind: `managed` (created by the tool) or `linked` (pre-existing). -/
inductive SessionKind
  | managed
  | linked
deriving DecidableEq, Repr

/-- `SessionRecord` from `types.ts`:
`{name, projectId, projectPath, createdAt, command?, lastAttachedAt?, kind}`. -/
structure SessionRecord where
  name : String
  projectId : String
  projectPath : String
  createdAt : String
  command : Option String
  lastAttachedAt : Option String
  kind : SessionKind
deriving DecidableEq, Repr

/-- `StateV1` from `types.ts`: the persisted document.  The `projects` and
`sessions` objects are modelled as insertion-ordered association lists. -/
structure StateV1 where
  version : Nat
  projects : List (String × Project)
  sessions : List (String × SessionRecord)
deriving DecidableEq, Repr

/-- The tmux per-session environment capability
(`getTmuxEnv(session, key) -> string | null` from `tmux.ts`, spec §6
`getSessionEnv`): `tmux.ts` is not among the provided sources, so the
capability is passed in as an unconstrained function per the spec signature. -/
def EnvFn : Type := String → String → Option String

/-- Modelled from the spec: `computeProjectId` (from `state.ts`, not among the
provided sources) is "a stable, deterministic fingerprint of the project's
canonicalized filesystem path (e.g., a content hash of the resolved real
path)".  We model it as a concrete deterministic string hash; the claims only
use that it is a fixed pure function of the path. -/
def computeProjectId (path : String) : String :=
  "p" ++ toString (path.data.foldl (fun h c => (h * 31 + c.toNat) % 1000000007) 7)

/-- `getTmuxEnv(name, "RESUMER_PROJECT_ID") ?? computeProjectId(projectPath)`
(part_005 line 126): nullish coalescing, so an empty-string value is kept. -/
def derivedProjectId (env : EnvFn) (name : String) (projectPath : String) : String :=
  (env name "RESUMER_PROJECT_ID").getD (computeProjectId projectPath)

/-- `cmdRaw && cmdRaw.trim().length ? cmdRaw : undefined` (part_005 line 128). -/
def recoveredCommand (env : EnvFn) (name : String) : Option String :=
  match env name "RESUMER_COMMAND" with
  | some c => if jsTrim c = "" then none else some c
  | none => none

/-- `getTmuxEnv(name, "RESUMER_CREATED_AT") ?? nowIso()` (part_005 line 129). -/
def recoveredCreatedAt (env : EnvFn) (now : String) (name : String) : String :=
  (env name "RESUMER_CREATED_AT").getD now

/-- `getTmuxEnv(name, "RESUMER_MANAGED") === "1"` (part_005 line 130). -/
def recoveredManaged (env : EnvFn) (name : String) : Bool :=
  env name "RESUMER_MANAGED" = some "1"

/-- `projectPath.split("/").filter(Boolean).at(-1) ?? projectPath`
(part_005 line 132). -/
def projectNameOf (p : String) : String :=
  ((splitDropAux (fun c => c == '/') p.data []).getLast?).getD p

/-- The SessionRecord synthesized for a recovered live session
(part_005 lines 142-149). -/
def recoveredRecord (env : EnvFn) (now : String) (name : String) (p : String) :
    SessionRecord :=
  { name := name
    projectId := derivedProjectId env name p
    projectPath := p
    createdAt := recoveredCreatedAt env now name
    command := recoveredCommand env name
    lastAttachedAt := none
    kind := if recoveredManaged env name then .managed else .linked }

/-- `state.projects[projectId] = state.projects[projectId] ?? fresh`
(part_005 lines 133-140): a no-op when the project exists, an append otherwise. -/
def insertProjectIfAbsent (m : List (String × Project)) (k : String) (v : Project) :
    List (String × Project) :=
  match alookup k m with
  | some _ => m
  | none => m ++ [(k, v)]

/-- The provenance project-path variable, with the code's truthiness check
(`if (!projectPath) continue`, part_005 lines 124-125): an unset or
empty-string value leaves the session untracked. -/
def provenancePath (env : EnvFn) (name : String) : Option String :=
  match env name "RESUMER_PROJECT_PATH" with
  | some p => if p = "" then none else some p
  | none => none

/-- Body of the second reconcile loop (part_005 lines 122-150) for one live
session name. -/
def reconcileStep (env : EnvFn) (now : String) (st : StateV1) (name : String) : StateV1 :=
  if (alookup name st.sessions).isSome then st
  else
    match provenancePath env name with
    | none => st
    | some p =>
      let r := recoveredRecord env now name p
      let proj : Project :=
        match alookup r.projectId st.projects with
        | some pr => pr
        | none =>
          { id := r.projectId
            path := p
            name := projectNameOf p
            createdAt := r.createdAt
            lastUsedAt := some r.createdAt }
      { st with
        projects := insertProjectIfAbsent st.projects r.projectId proj
        sessions := st.sessions ++ [(name, r)] }

/-- `reconcileStateWithTmux` (part_005 lines 115-151), as a pure function of
the persisted state, the live tmux session list (`listTmuxSessions()`), the
per-session environment capability and a fixed clock value. -/
def reconcileStateWithTmux (env : EnvFn) (now : String) (live : List String)
    (st : StateV1) : StateV1 :=
  let liveNames := dedupFirst [] live
  let st1 : StateV1 :=
    { st with sessions := st.sessions.filter (fun kv => liveNames.contains kv.1) }
  liveNames.foldl (reconcileStep env now) st1

/-! ### Reconciliation lemmas -/

theorem orElse_of_some {α : Type} (a : α) (f : Unit → Option α) :
    (some a).orElse f = some a := rfl

theorem orElse_of_none {α : Type} (f : Unit → Option α) :
    (none : Option α).orElse f = f () := rfl

theorem orElse_none_right {α : Type} (o : Option α) :
    o.orElse (fun _ => none) = o := by cases o <;> rfl

theorem alookup_filter_keys {β : Type} (l : List (String × β)) (names : List String)
    (k : String) :
    alookup k (l.filter (fun kv => names.contains kv.1)) =
      if k ∈ names then alookup k l else none := by
  induction l with
  | nil => simp [alookup]
  | cons kv rest ih =>
    obtain ⟨a, b⟩ := kv
    by_cases ha : names.contains a
    · rw [List.filter_cons_of_pos (by simpa using ha)]
      by_cases hk : k = a
      · subst hk
        rw [alookup, if_pos rfl, if_pos (by simpa using ha), alookup, if_pos rfl]
      · rw [alookup, if_neg hk, ih]
        by_cases hmem : k ∈ names
        · rw [if_pos hmem, if_pos hmem, alookup, if_neg hk]
        · rw [if_neg hmem, if_neg hmem]
    · rw [List.filter_cons_of_neg (by simpa using ha)]
      by_cases hk : k = a
      · subst hk
        rw [ih, if_neg (by simpa using ha)]
        rw [if_neg (by simpa using ha)]
      · rw [ih, alookup, if_neg hk]

/-- What the record-recovery loop appends for a given name, if anything. -/
def recoveredFor (env : EnvFn) (now : String) (k : String) : Option SessionRecord :=
  match provenancePath env k with
  | some p => some (recoveredRecord env now k p)
  | none => none

theorem reconcileStep_sessions_of_tracked (env : EnvFn) (now : String) (st : StateV1)
    (n : String) (h : (alookup n st.sessions).isSome = true) :
    reconcileStep env now st n = st := by
  rw [reconcileStep, if_pos h]

theorem reconcileStep_sessions_of_no_provenance (env : EnvFn) (now : String) (st : StateV1)
    (n : String) (h : provenancePath env n = none) :
    reconcileStep env now st n = st := by
  rw [reconcileStep]
  by_cases hs : (alookup n st.sessions).isSome
  · rw [if_pos hs]
  · rw [if_neg hs, h]

theorem reconcileStep_sessions_of_recovered (env : EnvFn) (now : String) (st : StateV1)
    (n : String) (p : String) (hs : alookup n st.sessions = none)
    (hp : provenancePath env n = some p) :
    (reconcileStep env now st n).sessions =
      st.sessions ++ [(n, recoveredRecord env now n p)] := by
  rw [reconcileStep, if_neg (by simp [hs]), hp]

theorem reconcileStep_projects_preserved (env : EnvFn) (now : String) (st : StateV1)
    (n : String) (pid : String) (v : Project) (h : alookup pid st.projects = some v) :
    alookup pid (reconcileStep env now st n).projects = some v := by
  rw [reconcileStep]
  by_cases hs : (alookup n st.sessions).isSome
  · rw [if_pos hs]; exact h
  · rw [if_neg hs]
    cases hp : provenancePath env n with
    | none => exact h
    | some p =>
      simp only
      rw [insertProjectIfAbsent]
      cases hl : alookup (recoveredRecord env now n p).projectId st.projects with
      | some pr => exact h
      | none =>
        rw [alookup_append, h]
        rfl

theorem foldl_reconcileStep_projects_preserved (env : EnvFn) (now : String)
    (names : List String) (st : StateV1) (pid : String) (v : Project)
    (h : alookup pid st.projects = some v) :
    alookup pid (names.foldl (reconcileStep env now) st).projects = some v := by
  induction names generalizing st with
  | nil => exact h
  | cons n rest ih =>
    exact ih (reconcileStep env now st n)
      (reconcileStep_projects_preserved env now st n pid v h)

theorem if_mem_cons_of_ne {α : Type} (k n : String) (rest : List String) (x : Option α)
    (hkn : k ≠ n) :
    (if k ∈ n :: rest then x else none) = (if k ∈ rest then x else none) := by
  by_cases hkr : k ∈ rest
  · rw [if_pos hkr, if_pos (List.mem_cons_of_mem _ hkr)]
  · rw [if_neg hkr, if_neg (fun h => by
      rcases List.mem_cons.mp h with h | h
      · exact hkn h
      · exact hkr h)]

theorem foldl_reconcileStep_sessions_lookup (env : EnvFn) (now : String)
    (names : List String) (hnd : names.Nodup) (st : StateV1) (k : String) :
    alookup k (names.foldl (reconcileStep env now) st).sessions =
      (alookup k st.sessions).orElse (fun _ =>
        if k ∈ names then recoveredFor env now k else none) := by
  induction names generalizing st with
  | nil =>
    simp only [List.foldl_nil, List.not_mem_nil, if_false]
    exact (orElse_none_right _).symm
  | cons n rest ih =>
    obtain ⟨hn, hndr⟩ := List.nodup_cons.mp hnd
    rw [List.foldl_cons]
    by_cases hs : (alookup n st.sessions).isSome
    · rw [reconcileStep_sessions_of_tracked env now st n hs, ih hndr st]
      cases hk : alookup k st.sessions with
      | some v => rw [orElse_of_some, orElse_of_some]
      | none =>
        rw [orElse_of_none, orElse_of_none]
        by_cases hkn : k = n
        · subst hkn
          rw [hk] at hs
          simp at hs
        · exact (if_mem_cons_of_ne k n rest _ hkn).symm
    · have hsn : alookup n st.sessions = none := by
        cases hsn : alookup n st.sessions with
        | none => rfl
        | some v => rw [hsn] at hs; simp at hs
      cases hp : provenancePath env n with
      | none =>
        rw [reconcileStep_sessions_of_no_provenance env now st n hp, ih hndr st]
        cases hk : alookup k st.sessions with
        | some v => rw [orElse_of_some, orElse_of_some]
        | none =>
          rw [orElse_of_none, orElse_of_none]
          by_cases hkn : k = n
          · subst hkn
            rw [if_pos (List.mem_cons_self _ _), if_neg hn]
            rw [recoveredFor, hp]
          · exact (if_mem_cons_of_ne k n rest _ hkn).symm
      | some p =>
        have hsess := reconcileStep_sessions_of_recovered env now st n p hsn hp
        rw [ih hndr (reconcileStep env now st n), hsess, alookup_append]
        by_cases hkn : k = n
        · subst hkn
          rw [hsn, orElse_of_none, orElse_of_none, alookup, if_pos rfl,
            orElse_of_some, if_pos (List.mem_cons_self _ _), recoveredFor, hp]
        · rw [show alookup k [(n, recoveredRecord env now n p)] = none by
            rw [alookup, if_neg hkn]; rfl]
          rw [orElse_none_right]
          cases hk : alookup k st.sessions with
          | some v => rw [orElse_of_some, orElse_of_some]
          | none =>
            rw [orElse_of_none, orElse_of_none]
            exact (if_mem_cons_of_ne k n rest _ hkn).symm

theorem foldl_reconcileStep_session_keys_live (env : EnvFn) (now : String)
    (names : List String) (L : List String) (st : StateV1)
    (hst : ∀ kv ∈ st.sessions, kv.1 ∈ L) (hnames : ∀ n ∈ names, n ∈ L) :
    ∀ kv ∈ (names.foldl (reconcileStep env now) st).sessions, kv.1 ∈ L := by
  induction names generalizing st with
  | nil => exact hst
  | cons n rest ih =>
    rw [List.foldl_cons]
    refine ih (reconcileStep env now st n) ?_ (fun m hm => hnames m (List.mem_cons_of_mem _ hm))
    intro kv hkv
    rw [reconcileStep] at hkv
    by_cases hs : (alookup n st.sessions).isSome
    · rw [if_pos hs] at hkv; exact hst kv hkv
    · rw [if_neg hs] at hkv
      cases hp : provenancePath env n with
      | none => rw [hp] at hkv; exact hst kv hkv
      | some p =>
        rw [hp] at hkv
        simp only at hkv
        rcases List.mem_append.mp hkv with h | h
        · exact hst kv h
        · have : kv.1 = n := by
            have := List.mem_singleton.mp h
            rw [this]
          rw [this]
          exact hnames n (List.mem_cons_self _ _)

theorem foldl_reconcileStep_sessions_nodup (env : EnvFn) (now : String)
    (names : List String) (st : StateV1) (h : (st.sessions.map Prod.fst).Nodup) :
    (((names.foldl (reconcileStep env now) st).sessions).map Prod.fst).Nodup := by
  induction names generalizing st with
  | nil => exact h
  | cons n rest ih =>
    rw [List.foldl_cons]
    refine ih (reconcileStep env now st n) ?_
    rw [reconcileStep]
    by_cases hs : (alookup n st.sessions).isSome
    · rw [if_pos hs]; exact h
    · rw [if_neg hs]
      cases hp : provenancePath env n with
      | none => exact h
      | some p =>
        simp only [List.map_append, List.map_cons, List.map_nil]
        rw [List.nodup_append]
        refine ⟨h, List.nodup_singleton n, ?_⟩
        intro a ha hb
        have hb' : a = n := by simpa using hb
        subst hb'
        have : alookup a st.sessions = none := by
          cases hx : alookup a st.sessions with
          | none => rfl
          | some v => rw [hx] at hs; simp at hs
        exact (alookup_eq_none_iff_not_mem_keys st.sessions a).mp this ha

theorem foldl_reconcileStep_project_added (env : EnvFn) (now : String)
    (names : List String) (st : StateV1) (n : String) (p : String)
    (hmem : n ∈ names) (hs : alookup n st.sessions = none)
    (hp : provenancePath env n = some p) :
    (alookup (derivedProjectId env n p)
      (names.foldl (reconcileStep env now) st).projects).isSome = true := by
  induction names generalizing st with
  | nil => simp at hmem
  | cons m rest ih =>
    rw [List.foldl_cons]
    by_cases hnm : n = m
    · subst hnm
      have hstep := reconcileStep_sessions_of_recovered env now st n p hs hp
      have hproj : (alookup (derivedProjectId env n p)
          (reconcileStep env now st n).projects).isSome = true := by
        rw [reconcileStep, if_neg (by simp [hs]), hp]
        simp only
        rw [insertProjectIfAbsent]
        have hid : (recoveredRecord env now n p).projectId = derivedProjectId env n p := rfl
        rw [hid]
        cases hl : alookup (derivedProjectId env n p) st.projects with
        | some pr => rw [hl]; rfl
        | none =>
          rw [alookup_append, hl, orElse_of_none, alookup, if_pos rfl]
          rfl
      cases hv : alookup (derivedProjectId env n p) (reconcileStep env now st n).projects with
      | none => rw [hv] at hproj; simp at hproj
      | some v =>
        rw [foldl_reconcileStep_projects_preserved env now rest _ _ v hv]
        rfl
    · have hmem' : n ∈ rest := by
        rcases List.mem_cons.mp hmem with h | h
        · exact absurd h hnm
        · exact h
      refine ih (reconcileStep env now st m) hmem' ?_
      rw [reconcileStep]
      by_cases hsm : (alookup m st.sessions).isSome
      · rw [if_pos hsm]; exact hs
      · rw [if_neg hsm]
        cases hpm : provenancePath env m with
        | none => exact hs
        | some q =>
          simp only
          rw [alookup_append, hs, orElse_of_none, alookup, if_neg hnm]
          rfl

theorem mem_dedupFirst_nil (live : List String) (x : String) :
    x ∈ dedupFirst [] live ↔ x ∈ live := by
  rw [mem_dedupFirst]
  simp

/-- The state after the pruning loop (part_005 lines 118-120): sessions whose
names are not live are deleted. -/
def pruneDead (live : List String) (st : StateV1) : StateV1 :=
  { st with sessions := st.sessions.filter (fun kv => (dedupFirst [] live).contains kv.1) }

theorem reconcileStateWithTmux_eq (env : EnvFn) (now : String) (live : List String)
    (st : StateV1) :
    reconcileStateWithTmux env now live st =
      (dedupFirst [] live).foldl (reconcileStep env now) (pruneDead live st) := rfl

theorem pruneDead_sessions (live : List String) (st : StateV1) :
    (pruneDead live st).sessions =
      st.sessions.filter (fun kv => (dedupFirst [] live).contains kv.1) := rfl

theorem pruneDead_projects (live : List String) (st : StateV1) :
    (pruneDead live st).projects = st.projects := rfl

/-! ### Claims C1, C2, C10 -/

/-- **C1.** For every state document and fixed live tmux enumeration with fixed
per-session environment, one run of `reconcileStateWithTmux`:
deletes exactly the SessionRecords whose names are not in the live set;
keeps tracked live sessions unchanged; for every live name not already
tracked, adds exactly one SessionRecord if and only if the session carries a
provenance project-path variable (set and non-empty, the code's truthiness
test), ensuring a Project exists for the derived id; live sessions without
that variable stay untracked, no other session entry is added or removed, and
existing projects are never removed or modified. -/
theorem C1_reconcile_exact_removal_and_recovery (st : StateV1) (live : List String)
    (env : EnvFn) (now : String) (hnd : (st.sessions.map Prod.fst).Nodup) :
    (∀ name, alookup name (reconcileStateWithTmux env now live st).sessions =
        if name ∈ live then
          match alookup name st.sessions with
          | some r => some r
          | none =>
            match provenancePath env name with
            | some p => some (recoveredRecord env now name p)
            | none => none
        else none)
    ∧ (∀ name p, name ∈ live → alookup name st.sessions = none →
        provenancePath env name = some p →
        (alookup (derivedProjectId env name p)
          (reconcileStateWithTmux env now live st).projects).isSome = true)
    ∧ (∀ pid v, alookup pid st.projects = some v →
        alookup pid (reconcileStateWithTmux env now live st).projects = some v)
    ∧ ((reconcileStateWithTmux env now live st).sessions.map Prod.fst).Nodup := by
  have hndL := nodup_dedupFirst live []
  refine ⟨?_, ?_, ?_, ?_⟩
  · intro name
    rw [reconcileStateWithTmux_eq,
      foldl_reconcileStep_sessions_lookup env now _ hndL _ name,
      pruneDead_sessions,
      alookup_filter_keys st.sessions (dedupFirst [] live) name]
    by_cases hlive : name ∈ live
    · have hmemL : name ∈ dedupFirst [] live := (mem_dedupFirst_nil live name).mpr hlive
      rw [if_pos hlive, if_pos hmemL, if_pos hmemL]
      cases hms : alookup name st.sessions with
      | some r => rw [orElse_of_some]
      | none => rw [orElse_of_none, recoveredFor]
    · have hmemL : name ∉ dedupFirst [] live :=
        fun h => hlive ((mem_dedupFirst_nil live name).mp h)
      rw [if_neg hlive, if_neg hmemL, if_neg hmemL, orElse_of_none]
  · intro name p hlive htracked hp
    have hmemL : name ∈ dedupFirst [] live := (mem_dedupFirst_nil live name).mpr hlive
    rw [reconcileStateWithTmux_eq]
    refine foldl_reconcileStep_project_added env now _ _ name p hmemL ?_ hp
    rw [pruneDead_sessions, alookup_filter_keys st.sessions (dedupFirst [] live) name,
      if_pos hmemL, htracked]
  · intro pid v hv
    rw [reconcileStateWithTmux_eq]
    refine foldl_reconcileStep_projects_preserved env now _ _ pid v ?_
    rw [pruneDead_projects]
    exact hv
  · rw [reconcileStateWithTmux_eq]
    refine foldl_reconcileStep_sessions_nodup env now _ _ ?_
    rw [pruneDead_sessions]
    exact List.Nodup.sublist ((List.filter_sublist st.sessions).map Prod.fst) hnd

/-- Fixed environment and state used to witness the reconcile claims: a single
live session `alpha` carrying full provenance variables. -/
def envAlpha : EnvFn := fun _ k =>
  if k = "RESUMER_PROJECT_PATH" then some "/tmp/alpha"
  else if k = "RESUMER_COMMAND" then some "codex --yolo"
  else if k = "RESUMER_CREATED_AT" then some "2024-01-01T00:00:00.000Z"
  else if k = "RESUMER_MANAGED" then some "1"
  else none

/-- The empty persisted state. -/
def emptyState : StateV1 := { version := 1, projects := [], sessions := [] }

theorem C1_reconcile_exact_removal_and_recovery_witness :
    alookup "alpha" (reconcileStateWithTmux envAlpha "T0" ["alpha"] emptyState).sessions =
      if "alpha" ∈ ["alpha"] then
        match alookup "alpha" emptyState.sessions with
        | some r => some r
        | none =>
          match provenancePath envAlpha "alpha" with
          | some p => some (recoveredRecord envAlpha "T0" "alpha" p)
          | none => none
      else none :=
  (C1_reconcile_exact_removal_and_recovery emptyState ["alpha"] envAlpha "T0"
    (by simp [emptyState])).1 "alpha"

/-- **C2.** Reconciliation is idempotent: with a fixed live enumeration, fixed
per-session environment and a fixed clock,
`reconcile (reconcile doc) = reconcile doc`. -/
theorem C2_reconcile_idempotent (st : StateV1) (live : List String) (env : EnvFn)
    (now : String) :
    reconcileStateWithTmux env now live (reconcileStateWithTmux env now live st) =
      reconcileStateWithTmux env now live st := by
  have hndL := nodup_dedupFirst live []
  have hkeys : ∀ kv ∈ (reconcileStateWithTmux env now live st).sessions,
      kv.1 ∈ dedupFirst [] live := by
    rw [reconcileStateWithTmux_eq]
    refine foldl_reconcileStep_session_keys_live env now _ _ _ ?_ (fun n hn => hn)
    rw [pruneDead_sessions]
    intro kv hkv
    have := List.of_mem_filter hkv
    simpa using this
  have hfilter : (reconcileStateWithTmux env now live st).sessions.filter
      (fun kv => (dedupFirst [] live).contains kv.1) =
      (reconcileStateWithTmux env now live st).sessions :=
    List.filter_eq_self.mpr (fun kv hkv => by simpa using hkeys kv hkv)
  have hfix : ∀ n ∈ dedupFirst [] live,
      (alookup n (reconcileStateWithTmux env now live st).sessions).isSome = true ∨
      provenancePath env n = none := by
    intro n hn
    cases hp : provenancePath env n with
    | none => exact Or.inr rfl
    | some p =>
      left
      rw [reconcileStateWithTmux_eq,
        foldl_reconcileStep_sessions_lookup env now _ hndL _ n]
      cases hx : alookup n (pruneDead live st).sessions with
      | some v => rw [orElse_of_some]; rfl
      | none =>
        rw [orElse_of_none, if_pos hn, recoveredFor, hp]
        rfl
  have hfold : ∀ (names : List String),
      (∀ n ∈ names, (alookup n (reconcileStateWithTmux env now live st).sessions).isSome = true ∨
        provenancePath env n = none) →
      names.foldl (reconcileStep env now) (reconcileStateWithTmux env now live st) =
        reconcileStateWithTmux env now live st := by
    intro names
    induction names with
    | nil => intro _; rfl
    | cons n rest ih =>
      intro h
      have hstep : reconcileStep env now (reconcileStateWithTmux env now live st) n =
          reconcileStateWithTmux env now live st := by
        rcases h n (List.mem_cons_self _ _) with hh | hh
        · exact reconcileStep_sessions_of_tracked env now _ n hh
        · exact reconcileStep_sessions_of_no_provenance env now _ n hh
      rw [List.foldl_cons, hstep]
      exact ih (fun m hm => h m (List.mem_cons_of_mem _ hm))
  have hprune : pruneDead live (reconcileStateWithTmux env now live st) =
      reconcileStateWithTmux env now live st := by
    have : (reconcileStateWithTmux env now live st).sessions.filter
        (fun kv => (dedupFirst [] live).contains kv.1) =
        (reconcileStateWithTmux env now live st).sessions := hfilter
    rw [pruneDead, this]
  conv_lhs => rw [reconcileStateWithTmux_eq env now live (reconcileStateWithTmux env now live st)]
  rw [hprune]
  exact hfold (dedupFirst [] live) hfix

/-- Environment exercising the empty-string corner of the project-id variable:
provenance path present, `RESUMER_PROJECT_ID` set to the empty string. -/
def envEmptyId : EnvFn := fun _ k =>
  if k = "RESUMER_PROJECT_PATH" then some "/tmp/alpha"
  else if k = "RESUMER_PROJECT_ID" then some ""
  else none

/-- **C10 counterexample.** The claim says an empty-string `RESUMER_PROJECT_ID`
causes the id to be recomputed from the path via `computeProjectId`.  The code
uses `??` (nullish coalescing), so with the project-id variable reported as
`""` the recovered record's project id is `""`, not
`computeProjectId "/tmp/alpha"`. -/
theorem C10_counterexample_empty_project_id :
    ((alookup "alpha"
        (reconcileStateWithTmux envEmptyId "T0" ["alpha"] emptyState).sessions).map
      SessionRecord.projectId) = some "" ∧
    computeProjectId "/tmp/alpha" ≠ "" := by
  constructor
  · rfl
  · decide

/-- **C10 (amended).** When `reconcileStateWithTmux` recovers a live session
with a provenance project path, the assigned project id is the value of
`RESUMER_PROJECT_ID` whenever the environment reports that variable at all
(including as the empty string), and is recomputed via `computeProjectId`
only when the variable is unset. -/
theorem C10_amended_project_id_derivation (st : StateV1) (live : List String)
    (env : EnvFn) (now : String) (name p : String) (hlive : name ∈ live)
    (htracked : alookup name st.sessions = none)
    (hp : provenancePath env name = some p) :
    ((alookup name (reconcileStateWithTmux env now live st).sessions).map
      SessionRecord.projectId) =
      some (match env name "RESUMER_PROJECT_ID" with
        | some v => v
        | none => computeProjectId p) := by
  have hndL := nodup_dedupFirst live []
  have hmemL : name ∈ dedupFirst [] live := (mem_dedupFirst_nil live name).mpr hlive
  have hlookup : alookup name (reconcileStateWithTmux env now live st).sessions =
      (alookup name (st.sessions.filter
        (fun kv => (dedupFirst [] live).contains kv.1))).orElse
        (fun _ => if name ∈ dedupFirst [] live then recoveredFor env now name else none) :=
    foldl_reconcileStep_sessions_lookup env now _ hndL _ name
  rw [hlookup, alookup_filter_keys st.sessions (dedupFirst [] live) name,
    if_pos hmemL, htracked, orElse_of_none, if_pos hmemL, recoveredFor, hp]
  show some (recoveredRecord env now name p).projectId = _
  show some (derivedProjectId env name p) = _
  rw [derivedProjectId]
  cases env name "RESUMER_PROJECT_ID" with
  | some v => rfl
  | none => rfl

theorem C10_amended_project_id_derivation_witness :
    ((alookup "alpha"
        (reconcileStateWithTmux envEmptyId "T0" ["alpha"] emptyState).sessions).map
      SessionRecord.projectId) =
      some (match envEmptyId "alpha" "RESUMER_PROJECT_ID" with
        | some v => v
        | none => computeProjectId "/tmp/alpha") :=
  C10_amended_project_id_derivation emptyState ["alpha"] envEmptyId "T0" "alpha"
    "/tmp/alpha" (by simp) rfl rfl

/-! ## Claude log reader (part_007) -/

/-- `isRealPrompt` (part_007 lines 32-43): rejects empty/whitespace text, a
leading `!`, and a first token that is a bare slash-command (a `/` followed by
at least one character with no further `/`). -/
def isRealPrompt (text : String) : Bool :=
  let trimmed := jsTrim text
  if trimmed = "" then false
  else if jsStartsWith trimmed "!" then false
  else
    let first := (tokensOf trimmed).headD ""
    if jsStartsWith first "/" && first.length > 1 &&
        !(strIncludes ⟨first.data.drop 1⟩ "/") then
      false
    else true

/-- The fixed marker substrings wrapping local shell-command output
(part_007 lines 85-93). -/
def localCommandMarkers : List String :=
  ["<bash-stdout>", "<bash-input>", "<local-command-caveat>",
   "<local-command-stdout>", "<command-name>", "<command-message>", "<command-args>"]

/-- `isLocalCommandContent` (part_007 lines 95-96). -/
def isLocalCommandContent (content : String) : Bool :=
  localCommandMarkers.any (fun marker => strIncludes content marker)

/-- The structural kind of one element of a message `content` array, as far as
`getLastMessageType` inspects it (`c?.type`). -/
inductive ItemKind
  | toolResult
  | toolUse
  | thinking
  | otherItem
deriving DecidableEq, Repr

/-- The `message.content` field of a transcript turn: a plain string, an array
of typed elements, or anything else. -/
inductive MsgContent
  | str (s : String)
  | arr (items : List ItemKind)
  | otherContent
deriving DecidableEq, Repr

/-- One line of a transcript tail as `getLastMessageType` sees it: `skip`
covers unparsable JSON, non-object lines, other `type`s, and user/assistant
lines whose `message` is not an object — all of which both passes step over. -/
inductive TLine
  | skip
  | user (c : MsgContent)
  | assistant (c : MsgContent)
deriving DecidableEq, Repr

/-- The inferred activity state. -/
inductive MType
  | user
  | assistant
  | exited
deriving DecidableEq, Repr

/-- The exit test applied to a user turn in the first pass (part_007
lines 106-113): plain string content, not a local-command echo, containing
`/exit` or `Goodbye!`. -/
def isExitContent : MsgContent → Bool
  | .str s => !isLocalCommandContent s && (strIncludes s "/exit" || strIncludes s "Goodbye!")
  | _ => false

/-- First pass of `getLastMessageType` (part_007 lines 98-115) over the
reversed line list: scan the last (at most) 5 user turns for an exit phrase. -/
def exitScanAux : List TLine → Nat → Bool
  | [], _ => false
  | l :: rest, cnt =>
    if 5 ≤ cnt then false
    else
      match l with
      | .user c => isExitContent c || exitScanAux rest (cnt + 1)
      | .assistant _ => exitScanAux rest cnt
      | .skip => exitScanAux rest cnt

/-- `content.some(c => c?.type === k)`. -/
def contentHasItem (c : MsgContent) (k : ItemKind) : Bool :=
  match c with
  | .arr items => items.any (fun i => i = k)
  | _ => false

/-- Second pass of `getLastMessageType` (part_007 lines 117-146) over the
reversed line list: classify by the newest user/assistant turn. -/
def lastTurnScan : List TLine → Option MType
  | [] => none
  | .skip :: rest => lastTurnScan rest
  | .user c :: _ =>
    if contentHasItem c .toolResult then some .user
    else if (match c with | .str s => isLocalCommandContent s | _ => false) then
      some .assistant
    else some .user
  | .assistant c :: _ =>
    if contentHasItem c .toolUse || contentHasItem c .thinking then some .user
    else some .assistant

/-- `getLastMessageType` (part_007 lines 81-151) on the parsed tail lines
(oldest first, as in the file). -/
def getLastMessageTypeLines (lines : List TLine) : Option MType :=
  if exitScanAux lines.reverse 0 then some .exited
  else lastTurnScan lines.reverse

/-- One line of a transcript head as `parseClaudeSessionFile` sees it:
the `type`, the string-typed `cwd`/`version`/`gitBranch` fields, and the
string-typed `message.model` when `message` is an object. -/
inductive MLine
  | junk
  | line (type : String) (cwd : Option String) (version : Option String)
      (gitBranch : Option String) (msgModel : Option String)
deriving DecidableEq, Repr

/-- The per-session metadata extracted from a transcript head. -/
structure HeadMeta where
  cwd : Option String
  model : Option String
  version : Option String
  gitBranch : Option String
deriving DecidableEq, Repr

/-- One step of `parseClaudeSessionFile` (part_007 lines 216-240):
first-value-wins per field. -/
def parseHeadStep (acc : HeadMeta) (l : MLine) : HeadMeta :=
  match l with
  | .junk => acc
  | .line ty cwd ver gb mm =>
    let isUA : Bool := ty = "user" || ty = "assistant"
    let acc1 := if isUA then
      { acc with
        cwd := acc.cwd.orElse (fun _ => cwd)
        version := acc.version.orElse (fun _ => ver)
        gitBranch := acc.gitBranch.orElse (fun _ => gb) }
      else acc
    if ty = "assistant" then { acc1 with model := acc1.model.orElse (fun _ => mm) }
    else acc1

/-- `parseClaudeSessionFile` (part_007 lines 207-243) on the parsed head
lines.  (The source's early `break` once all four fields are filled does not
change the first-value-wins result.) -/
def parseHead (lines : List MLine) : HeadMeta :=
  lines.foldl parseHeadStep ⟨none, none, none, none⟩

/-- One raw line of the history index file.  `junk` covers blank lines,
JSON-parse failures and non-object values (all skipped, part_007
lines 266-270); `rec` carries the string-typed `sessionId`/`project`/`display`
and number-typed `timestamp` fields. -/
inductive HRaw
  | junk
  | entry (sessionId : Option String) (project : Option String)
      (timestamp : Option Int) (display : Option String)
deriving DecidableEq, Repr

/-- A history line that survived the validity checks
(`if (!sessionId || !ts) continue`, part_007 line 276 — note JS truthiness:
an empty-string session id and a zero timestamp are both skipped). -/
structure HEntry where
  sid : String
  project : Option String
  ts : Int
  display : Option String
deriving DecidableEq, Repr

/-- Parse-and-validate one raw history line. -/
def validEntry : HRaw → Option HEntry
  | .junk => none
  | .entry sid proj ts disp =>
    match sid, ts with
    | some s, some t => if s = "" || t = 0 then none else some ⟨s, proj, t, disp⟩
    | _, _ => none

/-- `isValidPrompt` for a history line (part_007 line 278). -/
def promptOk (e : HEntry) : Bool :=
  match e.display with
  | some d => isRealPrompt d
  | none => false

/-- The per-session accumulator of the history grouping loop
(part_007 lines 255-264). -/
structure HInfo where
  projectPath : Option String
  lastTs : Int
  lastPrompt : Option String
  lastPromptTs : Option Int
  count : Nat
deriving DecidableEq, Repr

/-- First-occurrence initialisation (part_007 lines 280-288). -/
def initInfo (e : HEntry) : HInfo :=
  { projectPath := e.project
    lastTs := e.ts
    lastPrompt := if promptOk e then e.display else none
    lastPromptTs := if promptOk e then some e.ts else none
    count := 1 }

/-- Subsequent-occurrence update (part_007 lines 290-298).  The project path
is only overwritten by a truthy (non-empty) value on a newest-so-far line. -/
def updInfo (i : HInfo) (e : HEntry) : HInfo :=
  let i1 := { i with count := i.count + 1 }
  let i2 :=
    if e.ts ≥ i1.lastTs then
      { i1 with
        lastTs := e.ts
        projectPath :=
          match e.project with
          | some p => if p = "" then i1.projectPath else some p
          | none => i1.projectPath }
    else i1
  if promptOk e &&
      (match i2.lastPromptTs with | none => true | some t => e.ts ≥ t) then
    { i2 with lastPrompt := e.display, lastPromptTs := some e.ts }
  else i2

/-- One step of the grouping loop over a raw history line. -/
def hStepRaw (m : List (String × HInfo)) (raw : HRaw) : List (String × HInfo) :=
  match validEntry raw with
  | none => m
  | some e => upsert m e.sid (initInfo e) (fun i => updInfo i e)

/-- The insertion-ordered `byId` map built from the history file
(part_007 lines 266-299). -/
def buildById (lines : List HRaw) : List (String × HInfo) :=
  lines.foldl hStepRaw []

/-- A transcript file on disk, as far as `listClaudeSessions` reads it:
its path, parsed head lines, parsed tail lines (`none` when the tail read
throws, which `getLastMessageType` swallows), and its mtime in Unix ms
(`none` when `statSync` throws). -/
structure TFile where
  path : String
  headLines : List MLine
  tailRead : Option (List TLine)
  mtime : Option Int
deriving DecidableEq, Repr

/-- The Claude home directory as probed by the reader: whether
`history.jsonl` exists, its raw lines, and the per-`(projectPath, sessionId)`
transcript files that `findClaudeSessionFile`'s path-derivation/scanning
would locate (the directory-name encoding itself is filesystem probing,
abstracted as this table). -/
structure ClaudeHome where
  historyExists : Bool
  history : List HRaw
  files : List (String × String × TFile)

/-- The reader's environment: `none` when `getClaudeHomeDir()` finds no
candidate directory containing a history file. -/
structure ClaudeEnv where
  home : Option ClaudeHome

/-- Transcript-file lookup in the abstract file table. -/
def fileLookup (files : List (String × String × TFile)) (p : String) (id : String) :
    Option TFile :=
  match files with
  | [] => none
  | (p', id', f) :: rest =>
    if p = p' && id = id' then some f else fileLookup rest p id

/-- `findClaudeSessionFile` (part_007 lines 183-205): the
`if (!projectPath) return undefined` guard is explicit (an absent or
empty-string project path finds nothing); the on-disk probing is the
abstract table lookup. -/
def findSessionFile (h : ClaudeHome) (projectPath : Option String) (id : String) :
    Option TFile :=
  match projectPath with
  | none => none
  | some p => if p = "" then none else fileLookup h.files p id

/-- The raw activity state before the recency correction
(`sessionFile ? getLastMessageType(sessionFile) : undefined`, part_007
line 305; a failed tail read yields `undefined` via the catch). -/
def rawActivity (file : Option TFile) : Option MType :=
  match file with
  | none => none
  | some f =>
    match f.tailRead with
    | none => none
    | some ls => getLastMessageTypeLines ls

/-- The caller-side recency correction (part_007 lines 306-316): an
`assistant` result is upgraded to `user` when the transcript file's mtime is
within 20 000 ms before `now`; a failed `statSync` leaves it unchanged. -/
def applyRecency (file : Option TFile) (now : Int) (lmt : Option MType) : Option MType :=
  match file, lmt with
  | some f, some .assistant =>
    (match f.mtime with
     | some mt => if now - mt < 20000 then some .user else some .assistant
     | none => some .assistant)
  | _, l => l

/-- `ClaudeSessionSummary` (part_007 lines 5-17).  `lastActivityAt` is kept as
the Unix-ms timestamp; the source renders it via `isoFromUnixMs`, a strictly
monotone injection into ISO-8601 strings, so maxima and descending order are
preserved verbatim. -/
structure ClaudeSessionSummary where
  id : String
  projectPath : Option String
  lastActivityAt : Int
  lastPrompt : String
  sessionFile : Option String
  lastMessageType : Option MType
  cwd : Option String
  model : Option String
  version : Option String
  gitBranch : Option String
deriving DecidableEq, Repr

/-- The placeholder used when a session has no real prompt (part_007 line 26). -/
def NO_PROMPT_PLACEHOLDER : String := "(no prompt yet)"

/-- Build one summary from a grouped history entry (part_007 lines 302-325). -/
def mkSummary (h : ClaudeHome) (now : Int) (id : String) (info : HInfo) :
    ClaudeSessionSummary :=
  let file := findSessionFile h info.projectPath id
  let extra : HeadMeta :=
    match file with
    | none => ⟨none, none, none, none⟩
    | some f => parseHead f.headLines
  let lmt := applyRecency file now (rawActivity file)
  { id := id
    projectPath := info.projectPath
    lastActivityAt := info.lastTs
    lastPrompt := info.lastPrompt.getD NO_PROMPT_PLACEHOLDER
    sessionFile := file.map TFile.path
    lastMessageType := lmt
    cwd := extra.cwd
    model := extra.model
    version := extra.version
    gitBranch := extra.gitBranch }

/-- "`a` is at least as recent as `b`": the descending comparator of the final
sort (part_007 line 328). -/
def summaryRecency (a b : ClaudeSessionSummary) : Prop :=
  b.lastActivityAt ≤ a.lastActivityAt

instance : DecidableRel summaryRecency :=
  fun a b => inferInstanceAs (Decidable (b.lastActivityAt ≤ a.lastActivityAt))

instance : IsTotal ClaudeSessionSummary summaryRecency :=
  ⟨fun a b => (le_total b.lastActivityAt a.lastActivityAt).imp id id⟩

instance : IsTrans ClaudeSessionSummary summaryRecency :=
  ⟨fun _ _ _ h1 h2 => le_trans h2 h1⟩

/-- The stable descending sort on `lastActivityAt` (part_007 line 328). -/
def sortSummaries (l : List ClaudeSessionSummary) : List ClaudeSessionSummary :=
  List.insertionSort summaryRecency l

/-- `listClaudeSessions` (part_007 lines 245-330) as a pure function of the
probed environment and the current time in Unix ms. -/
def listClaudeSessions (env : ClaudeEnv) (now : Int) : List ClaudeSessionSummary :=
  match env.home with
  | none => []
  | some h =>
    if h.historyExists then
      sortSummaries ((buildById h.history).map (fun kv => mkSummary h now kv.1 kv.2))
    else []

/-! ### Activity-inference lemmas (claims C3, C4) -/

/-- The content of a user-authored turn, used to phrase the exit-scan window
("the last 5 user-authored turns") claim-side. -/
def userContentOf : TLine → Option MsgContent
  | .user c => some c
  | _ => none

theorem exitScanAux_eq_any (l : List TLine) (cnt : Nat) (h : cnt ≤ 5) :
    exitScanAux l cnt =
      ((l.filterMap userContentOf).take (5 - cnt)).any isExitContent := by
  induction l generalizing cnt with
  | nil => simp [exitScanAux]
  | cons t rest ih =>
    cases t with
    | skip =>
      rw [show (TLine.skip :: rest).filterMap userContentOf =
        rest.filterMap userContentOf from rfl]
      by_cases h5 : 5 ≤ cnt
      · have : cnt = 5 := le_antisymm h h5
        subst this
        rw [exitScanAux, if_pos (le_refl 5)]
        simp
      · rw [exitScanAux, if_neg h5]
        exact ih cnt h
    | assistant c =>
      rw [show (TLine.assistant c :: rest).filterMap userContentOf =
        rest.filterMap userContentOf from rfl]
      by_cases h5 : 5 ≤ cnt
      · have : cnt = 5 := le_antisymm h h5
        subst this
        rw [exitScanAux, if_pos (le_refl 5)]
        simp
      · rw [exitScanAux, if_neg h5]
        exact ih cnt h
    | user c =>
      rw [show (TLine.user c :: rest).filterMap userContentOf =
        c :: rest.filterMap userContentOf from rfl]
      by_cases h5 : 5 ≤ cnt
      · have : cnt = 5 := le_antisymm h h5
        subst this
        rw [exitScanAux, if_pos (le_refl 5)]
        simp
      · rw [exitScanAux, if_neg h5]
        have hc : cnt + 1 ≤ 5 := by omega
        rw [show 5 - cnt = (5 - (cnt + 1)) + 1 from by omega]
        rw [List.take_succ_cons, List.any_cons]
        rw [ih (cnt + 1) hc]

/-- The exit-scan condition as the claim words it: one of the last 5
user-authored turns has plain string exit content without a shell-escape
marker. -/
def exitWindowFires (lines : List TLine) : Bool :=
  ((lines.reverse.filterMap userContentOf).take 5).any isExitContent

theorem exitScan_iff_window (lines : List TLine) :
    exitScanAux lines.reverse 0 = exitWindowFires lines := by
  rw [exitScanAux_eq_any lines.reverse 0 (by omega)]
  rfl

/-- **C3.** Exit-scan precedence: whenever some of the last 5 user-authored
turns of the transcript tail has plain string content containing `/exit` or
`Goodbye!` and no local shell-escape marker substring, `getLastMessageType`
returns `exited`, regardless of how the newest turn would otherwise
classify. -/
theorem C3_exit_scan_precedence (lines : List TLine)
    (h : exitWindowFires lines = true) :
    getLastMessageTypeLines lines = some MType.exited := by
  rw [getLastMessageTypeLines, if_pos]
  rw [exitScan_iff_window, h]

theorem C3_exit_scan_precedence_witness :
    exitWindowFires [TLine.assistant (.arr [.toolUse]), TLine.user (.str "/exit")] = true ∧
    getLastMessageTypeLines [TLine.assistant (.arr [.toolUse]), TLine.user (.str "/exit")] =
      some MType.exited :=
  ⟨by decide,
   C3_exit_scan_precedence [TLine.assistant (.arr [.toolUse]), TLine.user (.str "/exit")]
     (by decide)⟩

/-- The newest parseable user/assistant turn, as the claim words it. -/
def newestRelevant (rev : List TLine) : Option TLine :=
  rev.find? (fun l => !(l = TLine.skip))

/-- The last-turn structural classification exactly as claim C4 words it,
keyed on the newest relevant turn. -/
def claimClassify (rev : List TLine) : Option MType :=
  match newestRelevant rev with
  | some (.user c) =>
    if contentHasItem c .toolResult then some .user
    else if (match c with | .str s => isLocalCommandContent s | _ => false) then
      some .assistant
    else some .user
  | some (.assistant c) =>
    if contentHasItem c .toolUse || contentHasItem c .thinking then some .user
    else some .assistant
  | _ => none

theorem lastTurnScan_eq_claimClassify (rev : List TLine) :
    lastTurnScan rev = claimClassify rev := by
  induction rev with
  | nil => rfl
  | cons t rest ih =>
    cases t with
    | skip =>
      rw [lastTurnScan, ih, claimClassify, claimClassify, newestRelevant, newestRelevant,
        List.find?_cons_of_neg _ (by simp)]
    | user c =>
      rw [claimClassify, newestRelevant, List.find?_cons_of_pos _ (by simp)]
      cases c <;> rfl
    | assistant c =>
      rw [claimClassify, newestRelevant, List.find?_cons_of_pos _ (by simp)]
      cases c <;> rfl

/-- **C4.** When the exit-scan does not fire, `getLastMessageType` classifies
by the newest user- or assistant-authored parseable turn: a user turn whose
content array contains `tool_result` ⇒ `user`; a user turn whose string
content contains a shell-escape marker ⇒ `assistant`; any other user turn ⇒
`user`; an assistant turn whose content array contains `tool_use` or
`thinking` ⇒ `user`; any other assistant turn ⇒ `assistant`; no such turn ⇒
undefined. -/
theorem C4_last_turn_classification (lines : List TLine)
    (h : exitWindowFires lines = false) :
    getLastMessageTypeLines lines = claimClassify lines.reverse := by
  rw [getLastMessageTypeLines, exitScan_iff_window, h]
  rw [if_neg (by simp)]
  exact lastTurnScan_eq_claimClassify lines.reverse

theorem C4_last_turn_classification_witness :
    exitWindowFires [TLine.user (.str "hello"), TLine.assistant (.arr [.toolUse])] = false ∧
    getLastMessageTypeLines [TLine.user (.str "hello"), TLine.assistant (.arr [.toolUse])] =
      claimClassify [TLine.user (.str "hello"), TLine.assistant (.arr [.toolUse])].reverse ∧
    getLastMessageTypeLines [TLine.user (.str "hello"), TLine.assistant (.arr [.toolUse])] =
      some MType.user :=
  ⟨by decide,
   C4_last_turn_classification [TLine.user (.str "hello"), TLine.assistant (.arr [.toolUse])]
     (by decide),
   by decide⟩

/-! ### History-grouping lemmas (claims C5, C6, C8) -/

/-- The valid history entries belonging to one session id, in file order. -/
def entriesOf (lines : List HRaw) (id : String) : List HEntry :=
  (lines.filterMap validEntry).filter (fun e => e.sid = id)

/-- One grouping step on an already-validated entry. -/
def hStep (m : List (String × HInfo)) (e : HEntry) : List (String × HInfo) :=
  upsert m e.sid (initInfo e) (fun i => updInfo i e)

/-- Collapse of the grouping over a single session's own entries. -/
def infoStep (acc : Option HInfo) (e : HEntry) : Option HInfo :=
  match acc with
  | none => some (initInfo e)
  | some i => some (updInfo i e)

def infoFold (es : List HEntry) : Option HInfo :=
  es.foldl infoStep none

theorem buildById_eq_foldl_hStep (lines : List HRaw) (m : List (String × HInfo)) :
    lines.foldl hStepRaw m = (lines.filterMap validEntry).foldl hStep m := by
  induction lines generalizing m with
  | nil => rfl
  | cons raw rest ih =>
    rw [List.foldl_cons]
    cases hv : validEntry raw with
    | none =>
      rw [List.filterMap_cons_none hv, ← ih]
      rw [show hStepRaw m raw = m from by rw [hStepRaw, hv]]
    | some e =>
      rw [List.filterMap_cons_some hv, List.foldl_cons, ← ih]
      rw [show hStepRaw m raw = hStep m e from by rw [hStepRaw, hv]; rfl]

theorem alookup_foldl_hStep (es : List HEntry) (m : List (String × HInfo)) (id : String) :
    alookup id (es.foldl hStep m) =
      (es.filter (fun e => e.sid = id)).foldl infoStep (alookup id m) := by
  induction es generalizing m with
  | nil => rfl
  | cons e rest ih =>
    rw [List.foldl_cons]
    by_cases he : e.sid = id
    · rw [List.filter_cons_of_pos (by simpa using he), List.foldl_cons, ih]
      have : alookup id (hStep m e) = infoStep (alookup id m) e := by
        rw [hStep, ← he, alookup_upsert_self]
        cases alookup e.sid m with
        | some i => rfl
        | none => rfl
      rw [this]
    · rw [List.filter_cons_of_neg (by simpa using he), ih]
      have : alookup id (hStep m e) = alookup id m :=
        alookup_upsert_ne m e.sid id _ _ (fun h => he h.symm)
      rw [this]

theorem alookup_buildById (lines : List HRaw) (id : String) :
    alookup id (buildById lines) = infoFold (entriesOf lines id) := by
  rw [buildById, buildById_eq_foldl_hStep, alookup_foldl_hStep]
  rfl

theorem buildById_keys_nodup (lines : List HRaw) :
    ((buildById lines).map Prod.fst).Nodup := by
  have haux : ∀ (m : List (String × HInfo)), (m.map Prod.fst).Nodup →
      ((lines.foldl hStepRaw m).map Prod.fst).Nodup := by
    induction lines with
    | nil => exact fun m h => h
    | cons raw rest ih =>
      intro m h
      rw [List.foldl_cons]
      refine ih (hStepRaw m raw) ?_
      rw [hStepRaw]
      cases validEntry raw with
      | none => exact h
      | some e => exact nodup_keys_upsert m e.sid _ _ h
  exact haux [] (by simp)

/-- Projection facts about `updInfo`. -/
theorem updInfo_lastTs (i : HInfo) (e : HEntry) :
    (updInfo i e).lastTs = if e.ts ≥ i.lastTs then e.ts else i.lastTs := by
  rw [updInfo]
  by_cases h1 : e.ts ≥ i.lastTs <;> simp only [h1, if_true, if_false] <;> split <;> rfl

theorem updInfo_prompt_fresh (i : HInfo) (e : HEntry) (hok : promptOk e = true)
    (h : i.lastPromptTs = none) :
    (updInfo i e).lastPrompt = e.display ∧ (updInfo i e).lastPromptTs = some e.ts := by
  rw [updInfo]
  by_cases h1 : e.ts ≥ i.lastTs <;> simp [h1, hok, h]

theorem updInfo_prompt_newer (i : HInfo) (e : HEntry) (t : Int) (hok : promptOk e = true)
    (h : i.lastPromptTs = some t) (hge : e.ts ≥ t) :
    (updInfo i e).lastPrompt = e.display ∧ (updInfo i e).lastPromptTs = some e.ts := by
  rw [updInfo]
  by_cases h1 : e.ts ≥ i.lastTs <;> simp [h1, hok, h, hge]

theorem updInfo_prompt_older (i : HInfo) (e : HEntry) (t : Int) (h : i.lastPromptTs = some t)
    (hge : ¬ e.ts ≥ t) :
    (updInfo i e).lastPrompt = i.lastPrompt ∧ (updInfo i e).lastPromptTs = i.lastPromptTs := by
  rw [updInfo]
  by_cases h1 : e.ts ≥ i.lastTs <;> simp [h1, h, hge]

theorem updInfo_prompt_invalid (i : HInfo) (e : HEntry) (hok : promptOk e = false) :
    (updInfo i e).lastPrompt = i.lastPrompt ∧ (updInfo i e).lastPromptTs = i.lastPromptTs := by
  rw [updInfo]
  by_cases h1 : e.ts ≥ i.lastTs <;> simp [h1, hok]

/-- The timestamped real-prompt lines among a session's entries. -/
def promptEntries (es : List HEntry) : List (Int × String) :=
  es.filterMap (fun e =>
    match e.display with
    | some d => if isRealPrompt d then some (e.ts, d) else none
    | none => none)

/-- The most recent element (later entries win timestamp ties), as the claim's
"most recent line passing the filter". -/
def pickLatest (l : List (Int × String)) : Option (Int × String) :=
  l.foldl (fun acc x =>
    match acc with
    | none => some x
    | some a => if x.1 ≥ a.1 then some x else some a) none

theorem foldl_infoStep_some (es : List HEntry) (i : HInfo) :
    es.foldl infoStep (some i) = some (es.foldl (fun a e => updInfo a e) i) := by
  induction es generalizing i with
  | nil => rfl
  | cons e rest ih => rw [List.foldl_cons, List.foldl_cons]; exact ih (updInfo i e)

theorem infoFold_eq_none_iff (es : List HEntry) : infoFold es = none ↔ es = [] := by
  cases es with
  | nil => simp [infoFold]
  | cons e rest =>
    rw [infoFold, List.foldl_cons]
    rw [show infoStep none e = some (initInfo e) from rfl, foldl_infoStep_some]
    simp

theorem infoFold_append_singleton (es : List HEntry) (e : HEntry) :
    infoFold (es ++ [e]) = infoStep (infoFold es) e := by
  rw [infoFold, infoFold, List.foldl_append]
  rfl

theorem pickLatest_append_singleton (l : List (Int × String)) (x : Int × String) :
    pickLatest (l ++ [x]) =
      (match pickLatest l with
       | none => some x
       | some a => if x.1 ≥ a.1 then some x else some a) := by
  rw [pickLatest, pickLatest, List.foldl_append]
  rfl

theorem promptEntries_append (es es' : List HEntry) :
    promptEntries (es ++ es') = promptEntries es ++ promptEntries es' := by
  rw [promptEntries, promptEntries, promptEntries, List.filterMap_append]

theorem promptEntries_singleton_blank (e : HEntry) (hd : e.display = none) :
    promptEntries [e] = [] := by
  simp [promptEntries, hd]

theorem promptEntries_singleton_real (e : HEntry) (d : String) (hd : e.display = some d)
    (hr : isRealPrompt d = true) : promptEntries [e] = [(e.ts, d)] := by
  simp [promptEntries, hd, hr]

theorem promptEntries_singleton_unreal (e : HEntry) (d : String) (hd : e.display = some d)
    (hr : isRealPrompt d = false) : promptEntries [e] = [] := by
  simp [promptEntries, hd, hr]

/-- The central per-session characterization: the collapsed `HInfo` carries
the maximum timestamp and the most recent real prompt. -/
theorem infoFold_some_spec (es : List HEntry) (i : HInfo) (h : infoFold es = some i) :
    (i.lastTs ∈ es.map HEntry.ts ∧ ∀ t ∈ es.map HEntry.ts, t ≤ i.lastTs)
    ∧ (match pickLatest (promptEntries es) with
       | none => i.lastPrompt = none ∧ i.lastPromptTs = none
       | some td => i.lastPrompt = some td.2 ∧ i.lastPromptTs = some td.1) := by
  induction es using List.reverseRecOn generalizing i with
  | nil => rw [show infoFold [] = none from rfl] at h; exact absurd h (by simp)
  | append_singleton es e ih =>
    rw [infoFold_append_singleton] at h
    cases hes : infoFold es with
    | none =>
      have hnil : es = [] := (infoFold_eq_none_iff es).mp hes
      subst hnil
      rw [hes] at h
      have hi : i = initInfo e := by
        rw [show infoStep none e = some (initInfo e) from rfl] at h
        exact (Option.some_injective _ h).symm
      subst hi
      rw [show (([] : List HEntry) ++ [e]) = [e] from by simp]
      constructor
      · constructor
        · simp [initInfo]
        · intro t ht
          simp at ht
          simp [initInfo, ht]
      · cases hd : e.display with
        | none =>
          rw [promptEntries_singleton_blank e hd]
          exact ⟨by simp [initInfo, promptOk, hd], by simp [initInfo, promptOk, hd]⟩
        | some d =>
          by_cases hr : isRealPrompt d
          · rw [promptEntries_singleton_real e d hd hr]
            exact ⟨by simp [initInfo, promptOk, hd, hr],
                   by simp [initInfo, promptOk, hd, hr]⟩
          · rw [promptEntries_singleton_unreal e d hd (by simpa using hr)]
            exact ⟨by simp [initInfo, promptOk, hd, hr], by simp [initInfo, promptOk, hd, hr]⟩
    | some i' =>
      rw [hes] at h
      have hi : i = updInfo i' e := by
        rw [show infoStep (some i') e = some (updInfo i' e) from rfl] at h
        exact (Option.some_injective _ h).symm
      subst hi
      obtain ⟨⟨hmem, hmax⟩, hprompt⟩ := ih i' hes
      constructor
      · rw [updInfo_lastTs]
        constructor
        · by_cases hts : e.ts ≥ i'.lastTs
          · rw [if_pos hts]; simp
          · rw [if_neg hts]
            simp only [List.map_append, List.mem_append]
            exact Or.inl hmem
        · intro t ht
          simp only [List.map_append, List.mem_append, List.map_cons, List.map_nil,
            List.mem_singleton] at ht
          by_cases hts : e.ts ≥ i'.lastTs
          · rw [if_pos hts]
            rcases ht with ht | ht
            · exact le_trans (hmax t ht) hts
            · omega
          · rw [if_neg hts]
            rcases ht with ht | ht
            · exact hmax t ht
            · omega
      · rw [promptEntries_append]
        cases hd : e.display with
        | none =>
          have hok : promptOk e = false := by rw [promptOk, hd]
          obtain ⟨h1, h2⟩ := updInfo_prompt_invalid i' e hok
          rw [promptEntries_singleton_blank e hd, List.append_nil, h1, h2]
          exact hprompt
        | some d =>
          by_cases hr : isRealPrompt d
          · have hok : promptOk e = true := by rw [promptOk, hd]; exact hr
            rw [promptEntries_singleton_real e d hd hr, pickLatest_append_singleton]
            cases hpl : pickLatest (promptEntries es) with
            | none =>
              rw [hpl] at hprompt
              obtain ⟨h1, h2⟩ := updInfo_prompt_fresh i' e hok hprompt.2
              exact ⟨by rw [h1, hd], by rw [h2]⟩
            | some td =>
              rw [hpl] at hprompt
              by_cases hge : e.ts ≥ td.1
              · rw [show (match some td with
                  | none => some (e.ts, d)
                  | some a => if (e.ts, d).1 ≥ a.1 then some (e.ts, d) else some a) =
                    some (e.ts, d) from by simp [hge]]
                obtain ⟨h1, h2⟩ := updInfo_prompt_newer i' e td.1 hok hprompt.2 hge
                exact ⟨by rw [h1, hd], by rw [h2]⟩
              · rw [show (match some td with
                  | none => some (e.ts, d)
                  | some a => if (e.ts, d).1 ≥ a.1 then some (e.ts, d) else some a) =
                    some td from by simp [hge]]
                obtain ⟨h1, h2⟩ := updInfo_prompt_older i' e td.1 hprompt.2 hge
                exact ⟨by rw [h1]; exact hprompt.1, by rw [h2]; exact hprompt.2⟩
          · have hok : promptOk e = false := by rw [promptOk, hd]; simpa using hr
            obtain ⟨h1, h2⟩ := updInfo_prompt_invalid i' e hok
            rw [promptEntries_singleton_unreal e d hd (by simpa using hr), List.append_nil,
              h1, h2]
            exact hprompt

theorem pickLatest_mem (l : List (Int × String)) (td : Int × String)
    (h : pickLatest l = some td) : td ∈ l := by
  have aux : ∀ (l : List (Int × String)) (acc : Option (Int × String)) (td : Int × String),
      l.foldl (fun acc x =>
        match acc with
        | none => some x
        | some a => if x.1 ≥ a.1 then some x else some a) acc = some td →
      acc = some td ∨ td ∈ l := by
    intro l
    induction l with
    | nil => intro acc td h; exact Or.inl h
    | cons x rest ih =>
      intro acc td h
      rw [List.foldl_cons] at h
      rcases ih _ td h with hstep | hmem
      · cases acc with
        | none =>
          have hx : x = td := Option.some_injective _ hstep
          exact Or.inr (hx ▸ List.mem_cons_self _ _)
        | some a =>
          by_cases hge : x.1 ≥ a.1
          · rw [show (match some a with
              | none => some x
              | some b => if x.1 ≥ b.1 then some x else some b) = some x from by
                simp [hge]] at hstep
            exact Or.inr (by rw [← Option.some_injective _ hstep]; exact List.mem_cons_self _ _)
          · rw [show (match some a with
              | none => some x
              | some b => if x.1 ≥ b.1 then some x else some b) = some a from by
                simp [hge]] at hstep
            exact Or.inl hstep
      · exact Or.inr (List.mem_cons_of_mem _ hmem)
  rcases aux l none td h with habs | hmem
  · exact absurd habs (by simp)
  · exact hmem

theorem mem_promptEntries_real (es : List HEntry) (td : Int × String)
    (h : td ∈ promptEntries es) : isRealPrompt td.2 = true := by
  rw [promptEntries] at h
  rcases List.mem_filterMap.mp h with ⟨e, _, hmap⟩
  cases hd : e.display with
  | none => rw [hd] at hmap; simp at hmap
  | some d =>
    rw [hd] at hmap
    by_cases hr : isRealPrompt d
    · rw [show (match some d with
        | some d => if isRealPrompt d = true then some (e.ts, d) else none
        | none => none) = some (e.ts, d) from by simp [hr]] at hmap
      have : (e.ts, d) = td := Option.some_injective _ hmap
      rw [← this]
      exact hr
    · rw [show (match some d with
        | some d => if isRealPrompt d = true then some (e.ts, d) else none
        | none => none) = none from by simp [hr]] at hmap
      simp at hmap

/-! ### Membership and structure of `listClaudeSessions` results -/

theorem listClaudeSessions_none (now : Int) : listClaudeSessions ⟨none⟩ now = [] := rfl

theorem listClaudeSessions_some (hh : ClaudeHome) (now : Int) :
    listClaudeSessions ⟨some hh⟩ now =
      if hh.historyExists then
        sortSummaries ((buildById hh.history).map (fun kv => mkSummary hh now kv.1 kv.2))
      else [] := rfl

theorem mem_listClaudeSessions_elim (env : ClaudeEnv) (now : Int)
    (s : ClaudeSessionSummary) (h : s ∈ listClaudeSessions env now) :
    ∃ hh : ClaudeHome, env.home = some hh ∧ hh.historyExists = true ∧
      ∃ info : HInfo, infoFold (entriesOf hh.history s.id) = some info ∧
        s = mkSummary hh now s.id info := by
  obtain ⟨eh⟩ := env
  cases eh with
  | none => rw [listClaudeSessions_none] at h; simp at h
  | some hh =>
    rw [listClaudeSessions_some] at h
    by_cases hex : hh.historyExists
    · rw [if_pos hex] at h
      have hmem : s ∈ (buildById hh.history).map (fun kv => mkSummary hh now kv.1 kv.2) :=
        (List.perm_insertionSort summaryRecency _).mem_iff.mp h
      rcases List.mem_map.mp hmem with ⟨kv, hkv, heq⟩
      have hid : s.id = kv.1 := by rw [← heq]; rfl
      refine ⟨hh, rfl, hex, kv.2, ?_, ?_⟩
      · rw [← alookup_buildById, hid]
        exact alookup_of_mem_nodup _ kv.1 kv.2 (buildById_keys_nodup _) (by simpa using hkv)
      · rw [hid, ← heq]
    · rw [if_neg hex] at h
      simp at h

theorem lastPrompt_placeholder_or_real (env : ClaudeEnv) (now : Int)
    (s : ClaudeSessionSummary) (hs : s ∈ listClaudeSessions env now) :
    s.lastPrompt = NO_PROMPT_PLACEHOLDER ∨ isRealPrompt s.lastPrompt = true := by
  obtain ⟨hh, _, _, info, hfold, hsum⟩ := mem_listClaudeSessions_elim env now s hs
  obtain ⟨_, hpr⟩ := infoFold_some_spec _ info hfold
  cases hpl : pickLatest (promptEntries (entriesOf hh.history s.id)) with
  | none =>
    rw [hpl] at hpr
    left
    rw [hsum]
    show info.lastPrompt.getD NO_PROMPT_PLACEHOLDER = _
    rw [hpr.1]
    rfl
  | some td =>
    rw [hpl] at hpr
    right
    have hreal : isRealPrompt td.2 = true :=
      mem_promptEntries_real _ td (pickLatest_mem _ td hpl)
    rw [hsum]
    show isRealPrompt (info.lastPrompt.getD NO_PROMPT_PLACEHOLDER) = true
    rw [hpr.1]
    exact hreal

/-! ### Claims C5, C6, C7, C8 -/

/-- A history whose only prompt line is a slash-command followed by further
words. -/
def c5Home : ClaudeHome :=
  { historyExists := true
    history := [HRaw.entry (some "s") none (some 1) (some "/exit now")]
    files := [] }

/-- **C5 counterexample.** The claim says the real-prompt filter rejects only
single bare slash-command tokens, so that "a slash-command followed by further
words is retained".  The code tests only the *first* whitespace token, so
`"/exit now"` is rejected and a session whose only prompt line is
`"/exit now"` gets the placeholder instead of that text. -/
theorem C5_counterexample_slash_command_with_words :
    isRealPrompt "/exit now" = false ∧
    (listClaudeSessions ⟨some c5Home⟩ 0).map ClaudeSessionSummary.lastPrompt =
      ["(no prompt yet)"] ∧
    ("(no prompt yet)" : String) ≠ "/exit now" := by
  refine ⟨by decide, by rfl, by decide⟩

/-- **C5 (amended).** Each per-session summary produced by
`listClaudeSessions` has `lastActivityAt` equal to the maximum timestamp over
that session's parseable history lines, and `lastPrompt` equal to the display
text of the most recent line passing the real-prompt filter — which rejects
exactly lines that are empty/whitespace, begin with `!`, or whose *first*
whitespace token is a bare slash-command (a `/` followed by at least one
character and no further `/`), regardless of any following words — or the
fixed placeholder `"(no prompt yet)"` when no line passes; and the summaries
are emitted sorted descending by `lastActivityAt`. -/
theorem C5_amended_history_summaries (env : ClaudeEnv) (now : Int) :
    (listClaudeSessions env now).Pairwise summaryRecency
    ∧ ∀ s ∈ listClaudeSessions env now, ∀ hh : ClaudeHome, env.home = some hh →
        (s.lastActivityAt ∈ (entriesOf hh.history s.id).map HEntry.ts
          ∧ ∀ t ∈ (entriesOf hh.history s.id).map HEntry.ts, t ≤ s.lastActivityAt)
        ∧ s.lastPrompt =
            (match pickLatest (promptEntries (entriesOf hh.history s.id)) with
             | none => NO_PROMPT_PLACEHOLDER
             | some td => td.2) := by
  constructor
  · obtain ⟨eh⟩ := env
    cases eh with
    | none => rw [listClaudeSessions_none]; exact List.Pairwise.nil
    | some hh =>
      rw [listClaudeSessions_some]
      by_cases hex : hh.historyExists
      · rw [if_pos hex]
        exact List.sorted_insertionSort summaryRecency _
      · rw [if_neg hex]
        exact List.Pairwise.nil
  · intro s hs hh hhome
    obtain ⟨hh', hh'eq, hex, info, hfold, hsum⟩ := mem_listClaudeSessions_elim env now s hs
    have hhh : hh' = hh := Option.some_injective _ (hh'eq ▸ hhome)
    rw [hhh] at hfold hsum
    obtain ⟨⟨hmem, hmax⟩, hpr⟩ := infoFold_some_spec _ info hfold
    constructor
    · constructor
      · rw [hsum]; exact hmem
      · intro t ht
        rw [hsum]
        exact hmax t ht
    · have hlp : s.lastPrompt = info.lastPrompt.getD NO_PROMPT_PLACEHOLDER := by
        rw [hsum]; rfl
      rw [hlp]
      cases hpl : pickLatest (promptEntries (entriesOf hh.history s.id)) with
      | none =>
        rw [hpl] at hpr
        rw [hpr.1]
        rfl
      | some td =>
        rw [hpl] at hpr
        rw [hpr.1]
        rfl

/-- Concrete home for the C5/C6 witnesses. -/
def c5DemoHome : ClaudeHome :=
  { historyExists := true
    history := [HRaw.entry (some "s") none (some 1) (some "deploy the service"),
                HRaw.entry (some "s") none (some 2) (some "/help")]
    files := [] }

/-- The summary the demo home produces. -/
def c5DemoSummary : ClaudeSessionSummary :=
  { id := "s", projectPath := none, lastActivityAt := 2,
    lastPrompt := "deploy the service", sessionFile := none,
    lastMessageType := none, cwd := none, model := none, version := none,
    gitBranch := none }

theorem C5_amended_history_summaries_witness :
    (c5DemoSummary.lastActivityAt ∈ (entriesOf c5DemoHome.history c5DemoSummary.id).map
        HEntry.ts
      ∧ ∀ t ∈ (entriesOf c5DemoHome.history c5DemoSummary.id).map HEntry.ts,
          t ≤ c5DemoSummary.lastActivityAt)
    ∧ c5DemoSummary.lastPrompt =
        (match pickLatest (promptEntries (entriesOf c5DemoHome.history c5DemoSummary.id)) with
         | none => NO_PROMPT_PLACEHOLDER
         | some td => td.2) :=
  (C5_amended_history_summaries ⟨some c5DemoHome⟩ 0).2 c5DemoSummary (by decide)
    c5DemoHome rfl

/-- History with the exact example lines of claim C6 (newest first rejected,
oldest retained). -/
def c6Home : ClaudeHome :=
  { historyExists := true
    history := [HRaw.entry (some "s") none (some 1) (some "deploy the service"),
                HRaw.entry (some "s") none (some 2) (some "/help"),
                HRaw.entry (some "s") none (some 3) (some ""),
                HRaw.entry (some "s") none (some 4) (some "! ls")]
    files := [] }

/-- **C6.** The prompt lines `"/help"`, `""` and `"! ls"` are never selected
as a session's `lastPrompt` (for any history), while `"deploy the service"`
is retained as `lastPrompt` on a history containing all four lines. -/
theorem C6_prompt_filter_examples :
    (∀ (env : ClaudeEnv) (now : Int), ∀ s ∈ listClaudeSessions env now,
        s.lastPrompt ≠ "/help" ∧ s.lastPrompt ≠ "" ∧ s.lastPrompt ≠ "! ls")
    ∧ (listClaudeSessions ⟨some c6Home⟩ 0).map ClaudeSessionSummary.lastPrompt =
        ["deploy the service"] := by
  constructor
  · intro env now s hs
    rcases lastPrompt_placeholder_or_real env now s hs with hph | hreal
    · rw [hph]
      refine ⟨by decide, by decide, by decide⟩
    · refine ⟨?_, ?_, ?_⟩ <;> intro heq <;> rw [heq] at hreal <;> exact absurd hreal (by decide)
  · rfl

theorem C6_prompt_filter_examples_witness :
    c5DemoSummary.lastPrompt ≠ "/help" ∧ c5DemoSummary.lastPrompt ≠ "" ∧
    c5DemoSummary.lastPrompt ≠ "! ls" :=
  C6_prompt_filter_examples.1 ⟨some c5DemoHome⟩ 0 c5DemoSummary (by decide)

/-- **C7.** The recency correction in `listClaudeSessions`: a just-computed
`assistant` activity state is upgraded to `user` iff the transcript file's
modification time lies within the 20-second freshness window before `now`;
`user`, `exited` and undefined results are never altered; and every summary's
`lastMessageType` is exactly the corrected raw activity state. -/
theorem C7_recency_correction (f : Option TFile) (now : Int) :
    (applyRecency f now (some MType.assistant) = some MType.user ↔
      ∃ tf mt, f = some tf ∧ tf.mtime = some mt ∧ now - mt < 20000)
    ∧ (applyRecency f now (some MType.assistant) = some MType.user ∨
       applyRecency f now (some MType.assistant) = some MType.assistant)
    ∧ (∀ l, l ≠ some MType.assistant → applyRecency f now l = l)
    ∧ (∀ (h : ClaudeHome) (id : String) (info : HInfo),
        (mkSummary h now id info).lastMessageType =
          applyRecency (findSessionFile h info.projectPath id) now
            (rawActivity (findSessionFile h info.projectPath id))) := by
  refine ⟨?_, ?_, ?_, ?_⟩
  · cases f with
    | none => simp [applyRecency]
    | some tf =>
      cases hmt : tf.mtime with
      | none => simp [applyRecency, hmt]
      | some mt =>
        by_cases hlt : now - mt < 20000 <;> simp [applyRecency, hmt, hlt]
  · cases f with
    | none => right; rfl
    | some tf =>
      cases hmt : tf.mtime with
      | none => right; simp [applyRecency, hmt]
      | some mt =>
        by_cases hlt : now - mt < 20000
        · left; simp [applyRecency, hmt, hlt]
        · right; simp [applyRecency, hmt, hlt]
  · intro l hl
    cases f with
    | none => rfl
    | some tf =>
      cases l with
      | none => rfl
      | some m =>
        cases m with
        | user => rfl
        | exited => rfl
        | assistant => exact absurd rfl hl
  · intro h id info
    rfl

theorem C7_recency_correction_witness :
    applyRecency (some ⟨"f", [], none, some 0⟩) 10000 none = none :=
  (C7_recency_correction (some ⟨"f", [], none, some 0⟩) 10000).2.2.1 none (by decide)

theorem buildById_drop_junk (l1 l2 : List HRaw) :
    buildById (l1 ++ HRaw.junk :: l2) = buildById (l1 ++ l2) := by
  rw [buildById, buildById, List.foldl_append, List.foldl_append, List.foldl_cons]
  rfl

theorem all_skip_exitScanAux (ls : List TLine) (cnt : Nat)
    (h : ∀ l ∈ ls, l = TLine.skip) : exitScanAux ls cnt = false := by
  induction ls generalizing cnt with
  | nil => rfl
  | cons l rest ih =>
    have hl : l = TLine.skip := h l (List.mem_cons_self _ _)
    subst hl
    rw [exitScanAux]
    by_cases h5 : 5 ≤ cnt
    · rw [if_pos h5]
    · rw [if_neg h5]
      exact ih cnt (fun x hx => h x (List.mem_cons_of_mem _ hx))

theorem all_skip_lastTurnScan (ls : List TLine) (h : ∀ l ∈ ls, l = TLine.skip) :
    lastTurnScan ls = none := by
  induction ls with
  | nil => rfl
  | cons l rest ih =>
    have hl : l = TLine.skip := h l (List.mem_cons_self _ _)
    subst hl
    rw [lastTurnScan]
    exact ih (fun x hx => h x (List.mem_cons_of_mem _ hx))

/-- **C8.** Graceful degradation: a missing home directory or missing history
file yields `[]` rather than an error; a malformed history line is simply
skipped (removing it does not change the result); a transcript consisting
only of malformed lines yields an undefined activity state and all-undefined
head metadata; and the set of emitted session ids depends only on the history
index, so a malformed transcript never suppresses the other sessions'
summaries. -/
theorem C8_graceful_degradation :
    (∀ now : Int, listClaudeSessions ⟨none⟩ now = [])
    ∧ (∀ (hist : List HRaw) (files : List (String × String × TFile)) (now : Int),
        listClaudeSessions ⟨some ⟨false, hist, files⟩⟩ now = [])
    ∧ (∀ (hx : Bool) (l1 l2 : List HRaw) (files : List (String × String × TFile))
        (now : Int),
        listClaudeSessions ⟨some ⟨hx, l1 ++ HRaw.junk :: l2, files⟩⟩ now =
          listClaudeSessions ⟨some ⟨hx, l1 ++ l2, files⟩⟩ now)
    ∧ (∀ ls : List TLine, (∀ l ∈ ls, l = TLine.skip) →
        getLastMessageTypeLines ls = none)
    ∧ (∀ ms : List MLine, (∀ m ∈ ms, m = MLine.junk) →
        parseHead ms = ⟨none, none, none, none⟩)
    ∧ (∀ (hh : ClaudeHome) (now : Int), hh.historyExists = true →
        ((listClaudeSessions ⟨some hh⟩ now).map ClaudeSessionSummary.id).Perm
          ((buildById hh.history).map Prod.fst)) := by
  refine ⟨fun now => rfl, fun hist files now => rfl, ?_, ?_, ?_, ?_⟩
  · intro hx l1 l2 files now
    rw [listClaudeSessions_some, listClaudeSessions_some]
    by_cases hex : hx
    · have : (⟨hx, l1 ++ HRaw.junk :: l2, files⟩ : ClaudeHome).historyExists = true := hex
      rw [if_pos this, if_pos hex]
      rw [show (⟨hx, l1 ++ HRaw.junk :: l2, files⟩ : ClaudeHome).history =
        l1 ++ HRaw.junk :: l2 from rfl]
      rw [buildById_drop_junk]
      rfl
    · have h1 : (⟨hx, l1 ++ HRaw.junk :: l2, files⟩ : ClaudeHome).historyExists = false := by
        simpa using hex
      rw [h1]
      rfl
  · intro ls h
    rw [getLastMessageTypeLines]
    rw [all_skip_exitScanAux ls.reverse 0 (fun l hl => h l (List.mem_reverse.mp hl))]
    rw [if_neg (by simp)]
    exact all_skip_lastTurnScan ls.reverse (fun l hl => h l (List.mem_reverse.mp hl))
  · intro ms h
    induction ms with
    | nil => rfl
    | cons m rest ih =>
      have hm : m = MLine.junk := h m (List.mem_cons_self _ _)
      subst hm
      rw [parseHead, List.foldl_cons]
      exact ih (fun x hx => h x (List.mem_cons_of_mem _ hx))
  · intro hh now hex
    rw [listClaudeSessions_some, if_pos hex]
    have hperm := (List.perm_insertionSort summaryRecency
      ((buildById hh.history).map (fun kv => mkSummary hh now kv.1 kv.2))).map
      ClaudeSessionSummary.id
    refine hperm.trans ?_
    rw [List.map_map]
    rw [show (ClaudeSessionSummary.id ∘ fun kv => mkSummary hh now kv.1 kv.2) = Prod.fst
      from funext (fun kv => rfl)]

theorem C8_graceful_degradation_witness :
    listClaudeSessions ⟨none⟩ 0 = [] ∧
    getLastMessageTypeLines [TLine.skip, TLine.skip] = none ∧
    parseHead [MLine.junk] = ⟨none, none, none, none⟩ ∧
    ((listClaudeSessions ⟨some c5DemoHome⟩ 0).map ClaudeSessionSummary.id).Perm
      ((buildById c5DemoHome.history).map Prod.fst) :=
  ⟨C8_graceful_degradation.1 0,
   C8_graceful_degradation.2.2.2.1 [TLine.skip, TLine.skip] (by decide),
   C8_graceful_degradation.2.2.2.2.1 [MLine.junk] (by decide),
   C8_graceful_degradation.2.2.2.2.2 c5DemoHome 0 rfl⟩

/-! ## Label & disambiguation module (`ui/tui-labels.ts`) -/

/-- `getBaseCommand`: first whitespace token of the command, with the
`"(shell)"` placeholder for an empty or absent command. -/
def getBaseCommand (cmd : Option String) : String :=
  match cmd with
  | none => "(shell)"
  | some c => if jsTrim c = "" then "(shell)" else (tokensOf (jsTrim c)).headD "(shell)"

/-- `s.command?.trim() || "(shell)"`. -/
def fullCmdOf (cmd : Option String) : String :=
  match cmd with
  | none => "(shell)"
  | some c => if jsTrim c = "" then "(shell)" else jsTrim c

/-- Append a session to its group (JS `Map<string, SessionRecord[]>` with
push-in-place). -/
def addToGroup (m : List (String × List SessionRecord)) (k : String) (s : SessionRecord) :
    List (String × List SessionRecord) :=
  upsert m k [s] (fun g => g ++ [s])

/-- The grouping loops of `disambiguateCommands`, shared over the key
function. -/
def groupFold (key : SessionRecord → String) (l : List SessionRecord) :
    List (String × List SessionRecord) :=
  l.foldl (fun m s => addToGroup m (key s) s) []

def groupByBase (sessions : List SessionRecord) : List (String × List SessionRecord) :=
  groupFold (fun s => getBaseCommand s.command) sessions

def groupByFull (group : List SessionRecord) : List (String × List SessionRecord) :=
  groupFold (fun s => fullCmdOf s.command) group

/-- JS `parts.join(" ")`. -/
def joinSp : List String → String
  | [] => ""
  | [t] => t
  | t :: rest => t ++ " " ++ joinSp rest

/-- Structural engine of the prefix-growing loop; `fuel` bounds the number of
iterations and is always passed `parts` itself, which covers every possible
iteration count of the source loop. -/
def growAux (fullCmds : List String) (parts : List String) (i : Nat) (pref : String) :
    List String → String
  | [] => pref
  | _ :: fs =>
    if i < parts.length then
      let p := joinSp (parts.take (i + 1))
      if (fullCmds.filter (fun fc => jsStartsWith fc p)).length = 1 then p
      else growAux fullCmds parts (i + 1) p fs
    else pref

/-- The prefix-growing loop of `disambiguateCommands`:
`for (let i = 1; i < parts.length; i++) { prefix = parts.slice(0, i+1).join(" ");
if (fullCmds.filter(fc => fc.startsWith(prefix)).length === 1) break; }`.
The loop runs at most `parts.length - i` times, so using `parts` as fuel is
exact. -/
def growLoop (fullCmds : List String) (parts : List String) (i : Nat) (pref : String) :
    String :=
  growAux fullCmds parts i pref parts

/-- Label assignment for one base-command group of `disambiguateCommands`. -/
def labelGroup (result : List (String × String)) (base : String)
    (group : List SessionRecord) : List (String × String) :=
  if group.length = 1 then
    match group with
    | s :: _ => upsert result s.name base (fun _ => base)
    | [] => result
  else
    let byFull := groupByFull group
    if byFull.length = 1 then
      group.foldl (fun r s => upsert r s.name base (fun _ => base)) result
    else
      let fullCmds := byFull.map Prod.fst
      group.foldl (fun r s =>
        let label := growLoop fullCmds (tokensOf (fullCmdOf s.command)) 1 base
        upsert r s.name label (fun _ => label)) result

/-- `disambiguateCommands` (`ui/tui-labels.ts`): shortest distinguishing
per-session labels, as a name-keyed map. -/
def disambiguateCommands (sessions : List SessionRecord) : List (String × String) :=
  (groupByBase sessions).foldl (fun r kv => labelGroup r kv.1 kv.2) []

/-! ### Grouping lemmas (claim C9) -/

/-- Combine an existing optional group with further filtered members. -/
def optGroup (o : Option (List SessionRecord)) (g : List SessionRecord) :
    Option (List SessionRecord) :=
  match o with
  | some g0 => some (g0 ++ g)
  | none => if g.isEmpty then none else some g

theorem optGroup_nil (o : Option (List SessionRecord)) : optGroup o [] = o := by
  cases o <;> simp [optGroup]

theorem alookup_groupFoldAux (key : SessionRecord → String) (l : List SessionRecord)
    (m : List (String × List SessionRecord)) (k : String) :
    alookup k (l.foldl (fun m s => addToGroup m (key s) s) m) =
      optGroup (alookup k m) (l.filter (fun t => key t = k)) := by
  induction l generalizing m with
  | nil => rw [List.foldl_nil, List.filter_nil, optGroup_nil]
  | cons s rest ih =>
    rw [List.foldl_cons, ih]
    by_cases hk : key s = k
    · rw [List.filter_cons_of_pos (by simpa using hk)]
      rw [show addToGroup m (key s) s = upsert m k [s] (fun g => g ++ [s]) from by
        rw [← hk]; rfl]
      rw [alookup_upsert_self]
      cases hm : alookup k m with
      | none => simp [optGroup]
      | some g0 => simp [optGroup]
    · rw [List.filter_cons_of_neg (by simpa using hk)]
      rw [show alookup k (addToGroup m (key s) s) = alookup k m from
        alookup_upsert_ne m (key s) k _ _ (fun h => hk h.symm)]

theorem alookup_groupFold (key : SessionRecord → String) (l : List SessionRecord)
    (k : String) :
    alookup k (groupFold key l) =
      (if (l.filter (fun t => key t = k)).isEmpty then none
       else some (l.filter (fun t => key t = k))) := by
  rw [groupFold, alookup_groupFoldAux]
  rw [show alookup k ([] : List (String × List SessionRecord)) = none from rfl]
  rfl

theorem dedupFirst_congr_seen (l : List String) (seen seen' : List String)
    (h : ∀ x, x ∈ seen ↔ x ∈ seen') : dedupFirst seen l = dedupFirst seen' l := by
  induction l generalizing seen seen' with
  | nil => rfl
  | cons x rest ih =>
    by_cases hx : x ∈ seen
    · rw [dedupFirst, if_pos hx, dedupFirst, if_pos ((h x).mp hx)]
      exact ih seen seen' h
    · rw [dedupFirst, if_neg hx, dedupFirst, if_neg (fun hx' => hx ((h x).mpr hx'))]
      rw [ih (x :: seen) (x :: seen') (fun y => by
        constructor
        · intro hy
          rcases List.mem_cons.mp hy with rfl | hy
          · exact List.mem_cons_self _ _
          · exact List.mem_cons_of_mem _ ((h y).mp hy)
        · intro hy
          rcases List.mem_cons.mp hy with rfl | hy
          · exact List.mem_cons_self _ _
          · exact List.mem_cons_of_mem _ ((h y).mpr hy))]

theorem keys_groupFoldAux (key : SessionRecord → String) (l : List SessionRecord)
    (m : List (String × List SessionRecord)) :
    (l.foldl (fun m s => addToGroup m (key s) s) m).map Prod.fst =
      m.map Prod.fst ++ dedupFirst (m.map Prod.fst) (l.map key) := by
  induction l generalizing m with
  | nil => simp [dedupFirst]
  | cons s rest ih =>
    rw [List.foldl_cons, ih, List.map_cons]
    by_cases hk : (alookup (key s) m).isSome
    · have hmem : key s ∈ m.map Prod.fst := (alookup_isSome_iff_mem_keys m (key s)).mp hk
      rw [dedupFirst, if_pos hmem]
      have hkeys : (addToGroup m (key s) s).map Prod.fst = m.map Prod.fst := by
        rw [addToGroup, keys_upsert]
        cases hl : alookup (key s) m with
        | some v => rfl
        | none => rw [hl] at hk; simp at hk
      rw [hkeys]
    · have hnone : alookup (key s) m = none := by
        cases hl : alookup (key s) m with
        | none => rfl
        | some v => rw [hl] at hk; simp at hk
      have hmem : key s ∉ m.map Prod.fst := (alookup_eq_none_iff_not_mem_keys m _).mp hnone
      rw [dedupFirst, if_neg hmem]
      have hkeys : (addToGroup m (key s) s).map Prod.fst = m.map Prod.fst ++ [key s] := by
        rw [addToGroup, keys_upsert, hnone]
      rw [hkeys]
      rw [dedupFirst_congr_seen (rest.map key) (m.map Prod.fst ++ [key s])
        (key s :: m.map Prod.fst) (fun y => by
          constructor
          · intro hy
            rcases List.mem_append.mp hy with hy | hy
            · exact List.mem_cons_of_mem _ hy
            · rw [List.mem_singleton.mp hy]; exact List.mem_cons_self _ _
          · intro hy
            rcases List.mem_cons.mp hy with rfl | hy
            · exact List.mem_append.mpr (Or.inr (List.mem_singleton.mpr rfl))
            · exact List.mem_append.mpr (Or.inl hy))]
      rw [List.append_assoc]
      rfl

theorem keys_groupFold (key : SessionRecord → String) (l : List SessionRecord) :
    (groupFold key l).map Prod.fst = dedupFirst [] (l.map key) := by
  rw [groupFold, keys_groupFoldAux]
  rfl

theorem keys_groupFold_nodup (key : SessionRecord → String) (l : List SessionRecord) :
    ((groupFold key l).map Prod.fst).Nodup := by
  rw [keys_groupFold]
  exact nodup_dedupFirst _ _

theorem alookup_some_mem {β : Type} (m : List (String × β)) (k : String) (v : β)
    (h : alookup k m = some v) : (k, v) ∈ m := by
  induction m with
  | nil => simp [alookup] at h
  | cons kv rest ih =>
    obtain ⟨a, b⟩ := kv
    by_cases hk : k = a
    · rw [alookup, if_pos hk] at h
      have : b = v := Option.some_injective _ h
      rw [← this, hk]
      exact List.mem_cons_self _ _
    · rw [alookup, if_neg hk] at h
      exact List.mem_cons_of_mem _ (ih h)

/-- Lookup through a run of per-session `set` calls, away from all names. -/
theorem alookup_setFold_not_mem (f : SessionRecord → String) (g : List SessionRecord)
    (r : List (String × String)) (n : String) (h : ∀ s ∈ g, s.name ≠ n) :
    alookup n (g.foldl (fun r s => upsert r s.name (f s) (fun _ => f s)) r) =
      alookup n r := by
  induction g generalizing r with
  | nil => rfl
  | cons s rest ih =>
    rw [List.foldl_cons, ih _ (fun x hx => h x (List.mem_cons_of_mem _ hx))]
    exact alookup_upsert_ne r s.name n _ _ (fun hn => h s (List.mem_cons_self _ _) hn.symm)

/-- Lookup through a run of per-session `set` calls, at a member's name. -/
theorem alookup_setFold_mem (f : SessionRecord → String) (g : List SessionRecord)
    (r : List (String × String)) (s : SessionRecord)
    (hnd : (g.map SessionRecord.name).Nodup) (hs : s ∈ g) :
    alookup s.name (g.foldl (fun r s => upsert r s.name (f s) (fun _ => f s)) r) =
      some (f s) := by
  induction g generalizing r with
  | nil => simp at hs
  | cons t rest ih =>
    rw [List.foldl_cons]
    rcases List.mem_cons.mp hs with rfl | hs'
    · have hrest : ∀ x ∈ rest, x.name ≠ s.name := by
        intro x hx hxn
        have : s.name ∈ rest.map SessionRecord.name := List.mem_map.mpr ⟨x, hx, hxn⟩
        exact (List.nodup_cons.mp (by simpa using hnd)).1 this
      rw [alookup_setFold_not_mem f rest _ s.name hrest]
      rw [alookup_upsert_self]
      cases alookup s.name r with
      | some v => rfl
      | none => rfl
    · exact ih _ (List.nodup_cons.mp (by simpa using hnd)).2 hs'

/-- The label `labelGroup` assigns to a member of its group. -/
def labelIn (base : String) (group : List SessionRecord) (s : SessionRecord) : String :=
  if group.length = 1 then base
  else if (groupByFull group).length = 1 then base
  else growLoop ((groupByFull group).map Prod.fst) (tokensOf (fullCmdOf s.command)) 1 base

theorem alookup_labelGroup_not_mem (r : List (String × String)) (base : String)
    (g : List SessionRecord) (n : String) (h : ∀ s ∈ g, s.name ≠ n) :
    alookup n (labelGroup r base g) = alookup n r := by
  rw [labelGroup.eq_def]
  by_cases h1 : g.length = 1
  · rw [if_pos h1]
    cases g with
    | nil => rfl
    | cons s rest =>
      exact alookup_upsert_ne r s.name n _ _
        (fun hn => h s (List.mem_cons_self _ _) hn.symm)
  · rw [if_neg h1]
    by_cases h2 : (groupByFull g).length = 1
    · rw [if_pos h2]
      exact alookup_setFold_not_mem _ g r n h
    · rw [if_neg h2]
      exact alookup_setFold_not_mem _ g r n h

theorem alookup_labelGroup_mem (r : List (String × String)) (base : String)
    (g : List SessionRecord) (s : SessionRecord)
    (hnd : (g.map SessionRecord.name).Nodup) (hs : s ∈ g) :
    alookup s.name (labelGroup r base g) = some (labelIn base g s) := by
  rw [labelGroup.eq_def, labelIn]
  by_cases h1 : g.length = 1
  · rw [if_pos h1, if_pos h1]
    cases g with
    | nil => simp at hs
    | cons t rest =>
      have hrest : rest = [] := by
        cases rest with
        | nil => rfl
        | cons a b => simp at h1
      subst hrest
      have hst : s = t := by simpa using hs
      subst hst
      rw [alookup_upsert_self]
      cases alookup s.name r with
      | some v => rfl
      | none => rfl
  · rw [if_neg h1, if_neg h1]
    by_cases h2 : (groupByFull g).length = 1
    · rw [if_pos h2, if_pos h2]
      exact alookup_setFold_mem _ g r s hnd hs
    · rw [if_neg h2, if_neg h2]
      exact alookup_setFold_mem _ g r s hnd hs

theorem alookup_labelFold_not_mem (groups : List (String × List SessionRecord))
    (r : List (String × String)) (n : String)
    (h : ∀ kv ∈ groups, ∀ t ∈ kv.2, t.name ≠ n) :
    alookup n (groups.foldl (fun r kv => labelGroup r kv.1 kv.2) r) = alookup n r := by
  induction groups generalizing r with
  | nil => rfl
  | cons kv rest ih =>
    rw [List.foldl_cons, ih _ (fun x hx => h x (List.mem_cons_of_mem _ hx))]
    exact alookup_labelGroup_not_mem r kv.1 kv.2 n (h kv (List.mem_cons_self _ _))

theorem groupByBase_value (sessions : List SessionRecord)
    (kv : String × List SessionRecord) (h : kv ∈ groupByBase sessions) :
    kv.2 = sessions.filter (fun t => getBaseCommand t.command = kv.1) := by
  have hknd : ((groupByBase sessions).map Prod.fst).Nodup := keys_groupFold_nodup _ _
  have hlook : alookup kv.1 (groupByBase sessions) = some kv.2 :=
    alookup_of_mem_nodup _ kv.1 kv.2 hknd (by simpa using h)
  rw [groupByBase, alookup_groupFold] at hlook
  by_cases he : (sessions.filter (fun t => getBaseCommand t.command = kv.1)).isEmpty
  · rw [if_pos he] at hlook
    simp at hlook
  · rw [if_neg he] at hlook
    exact (Option.some_injective _ hlook).symm

/-! ### Claim C9 -/

/-- Record constructor for concrete disambiguation inputs. -/
def mkSess (n : String) (cmd : Option String) : SessionRecord :=
  { name := n, projectId := "p", projectPath := "/p", createdAt := "T",
    command := cmd, lastAttachedAt := none, kind := .linked }

/-- **C9 counterexample.**  With sessions running `bash -c` and `bash -c ls`
(same base, distinct full commands, one a prefix of the other), the claim
requires each label not to be a string prefix of any other distinct full
command in the group — but the code labels the `bash -c` session `"bash -c"`,
which *is* a string prefix of `"bash -c ls"`. -/
theorem C9_counterexample_prefix_full_command :
    alookup "s1" (disambiguateCommands
      [mkSess "s1" (some "bash -c"), mkSess "s2" (some "bash -c ls")]) =
      some "bash -c" ∧
    jsStartsWith "bash -c ls" "bash -c" = true ∧
    ("bash -c" : String) ≠ "bash -c ls" := by
  refine ⟨by rfl, by decide, by decide⟩

/-- The distinct full commands of a group, in first-occurrence order. -/
def distinctFulls (group : List SessionRecord) : List String :=
  dedupFirst [] (group.map (fun s => fullCmdOf s.command))

/-- The label claim C9 (as amended) assigns: group the sessions by base
command; a singleton group gets the base; a group with a single distinct full
command gets the base; otherwise grow whitespace-token prefixes from two
tokens on, stopping at the first prefix that exactly one distinct full
command of the group extends (string-prefix-wise), and falling back to the
whole single-space-rejoined command (or the base, for a one-token command)
when no prefix qualifies. -/
def claimLabel (sessions : List SessionRecord) (s : SessionRecord) : String :=
  let base := getBaseCommand s.command
  let group := sessions.filter (fun t => getBaseCommand t.command = base)
  if group.length = 1 then base
  else if (distinctFulls group).length = 1 then base
  else growLoop (distinctFulls group) (tokensOf (fullCmdOf s.command)) 1 base

/-- **C9 (amended).**  For session lists with distinct names,
`disambiguateCommands` labels every session with `claimLabel`: the base
command for a unique base or a group sharing one full command, and otherwise
the shortest grown token prefix that exactly one distinct full command in the
group extends, falling back to the whole normalized command; in particular
`"bash -lc"` and `"bash -c"` receive the distinct labels `"bash -lc"` and
`"bash -c"`. -/
theorem C9_amended_label_disambiguation (sessions : List SessionRecord)
    (hnd : (sessions.map SessionRecord.name).Nodup) :
    (∀ s ∈ sessions,
      alookup s.name (disambiguateCommands sessions) = some (claimLabel sessions s))
    ∧ alookup "s1" (disambiguateCommands
        [mkSess "s1" (some "bash -lc"), mkSess "s2" (some "bash -c")]) = some "bash -lc"
    ∧ alookup "s2" (disambiguateCommands
        [mkSess "s1" (some "bash -lc"), mkSess "s2" (some "bash -c")]) = some "bash -c" := by
  refine ⟨?_, by rfl, by rfl⟩
  intro s hs
  have hsg : s ∈ sessions.filter
      (fun t => getBaseCommand t.command = getBaseCommand s.command) :=
    List.mem_filter.mpr ⟨hs, by simp⟩
  have hgne : (sessions.filter
      (fun t => getBaseCommand t.command = getBaseCommand s.command)).isEmpty = false := by
    cases hfe : sessions.filter
        (fun t => getBaseCommand t.command = getBaseCommand s.command) with
    | nil => rw [hfe] at hsg; simp at hsg
    | cons a b => rfl
  have hlook : alookup (getBaseCommand s.command) (groupByBase sessions) =
      some (sessions.filter
        (fun t => getBaseCommand t.command = getBaseCommand s.command)) := by
    rw [groupByBase, alookup_groupFold, hgne]
    rfl
  have hmemg : (getBaseCommand s.command,
      sessions.filter (fun t => getBaseCommand t.command = getBaseCommand s.command)) ∈
      groupByBase sessions := alookup_some_mem _ _ _ hlook
  obtain ⟨G1, G2, hsplit⟩ := List.append_of_mem hmemg
  have hknd : ((groupByBase sessions).map Prod.fst).Nodup := keys_groupFold_nodup _ _
  have hbase_not_G2 : getBaseCommand s.command ∉ G2.map Prod.fst := by
    rw [hsplit] at hknd
    simp only [List.map_append, List.map_cons] at hknd
    have := (List.nodup_append.mp hknd).2.1
    exact (List.nodup_cons.mp this).1
  have hG2 : ∀ kv ∈ G2, ∀ t ∈ kv.2, t.name ≠ s.name := by
    intro kv hkv t ht hneq
    have hkv_mem : kv ∈ groupByBase sessions := by
      rw [hsplit]
      exact List.mem_append.mpr (Or.inr (List.mem_cons_of_mem _ hkv))
    have hkv_val := groupByBase_value sessions kv hkv_mem
    rw [hkv_val] at ht
    have ht_sess : t ∈ sessions := (List.mem_filter.mp ht).1
    have ht_base : getBaseCommand t.command = kv.1 := by
      have := (List.mem_filter.mp ht).2
      simpa using this
    have hts : t = s := List.inj_on_of_nodup_map hnd ht_sess hs hneq
    rw [hts] at ht_base
    exact hbase_not_G2 (ht_base ▸ List.mem_map.mpr ⟨kv, hkv, rfl⟩)
  have hgnames : ((sessions.filter
      (fun t => getBaseCommand t.command = getBaseCommand s.command)).map
        SessionRecord.name).Nodup :=
    List.Nodup.sublist ((List.filter_sublist sessions).map SessionRecord.name) hnd
  rw [disambiguateCommands, hsplit, List.foldl_append, List.foldl_cons]
  rw [alookup_labelFold_not_mem G2 _ s.name hG2]
  rw [alookup_labelGroup_mem _ _ _ s hgnames hsg]
  have hbridge : labelIn (getBaseCommand s.command)
      (sessions.filter (fun t => getBaseCommand t.command = getBaseCommand s.command)) s =
      claimLabel sessions s := by
    rw [labelIn, claimLabel]
    have hdf : (groupByFull (sessions.filter
        (fun t => getBaseCommand t.command = getBaseCommand s.command))).map Prod.fst =
        distinctFulls (sessions.filter
          (fun t => getBaseCommand t.command = getBaseCommand s.command)) := by
      rw [groupByFull, keys_groupFold, distinctFulls]
    have hlen : (groupByFull (sessions.filter
        (fun t => getBaseCommand t.command = getBaseCommand s.command))).length =
        (distinctFulls (sessions.filter
          (fun t => getBaseCommand t.command = getBaseCommand s.command))).length := by
      rw [← hdf, List.length_map]
    rw [hdf, hlen]
  rw [hbridge]

theorem C9_amended_label_disambiguation_witness :
    alookup "s1" (disambiguateCommands
      [mkSess "s1" (some "bash -lc"), mkSess "s2" (some "bash -c")]) =
      some (claimLabel [mkSess "s1" (some "bash -lc"), mkSess "s2" (some "bash -c")]
        (mkSess "s1" (some "bash -lc"))) :=
  (C9_amended_label_disambiguation
    [mkSess "s1" (some "bash -lc"), mkSess "s2" (some "bash -c")] (by decide)).1
    (mkSess "s1" (some "bash -lc")) (by decide)

end Resumer
